import Mathlib

/-!
Shallow embedding of the Diagon search-engine core (C++ sources under
`pkg/data/diagon/`) used to check the natural-language specification.

Modelling conventions:
* `std::unordered_map` is modelled as an association list (`List (K × V)`);
  `operator[]`-insertion appends a fresh key at the end, assignment replaces
  the value in place.  Iteration order of an unordered container is
  unspecified in C++, so theorems about iterated maps only use membership.
* C++ `double` is modelled as `ℚ`; `int64_t`/`int` as unbounded `Int`
  (no claim under scrutiny depends on overflow or rounding of binary
  floating point).  `std::numeric_limits<double>::max()` and `lowest()`
  are modelled by the constants `dblMaxQ` and `dblLowestQ`.
* C++ exceptions are modelled with `Except String`; a `try`/`catch` that
  converts failure into a return value becomes a `match` on the `Except`.
* `json::parse` is external library code; its result is passed to
  `addDocument` as an `Option Json` (`none` = the parse threw).
-/

namespace Diagon

/-- Parsed JSON value (`nlohmann::json`), restricted to the shapes the engine
inspects: objects, arrays, strings, integers, floats, booleans, null. -/
inductive Json where
  | obj (fields : List (String × Json))
  | arr (elems : List Json)
  | str (s : String)
  | int (n : Int)
  | float (q : ℚ)
  | bool (b : Bool)
  | null

/-- Association-list lookup: first binding for the key, if any
(models `unordered_map::find`). -/
def lookupA {α : Type} : List (String × α) → String → Option α
  | [], _ => none
  | (k, v) :: rest, key => if k = key then some v else lookupA rest key

/-- Association-list update: replace the value bound to `key` if present,
otherwise append a new binding (models `unordered_map::operator[] = v`). -/
def setA {α : Type} : List (String × α) → String → α → List (String × α)
  | [], key, v => [(key, v)]
  | (k, w) :: rest, key, v =>
      if k = key then (k, v) :: rest else (k, w) :: setA rest key v

/-- Association-list erase (models `unordered_map::erase`). -/
def eraseA {α : Type} (m : List (String × α)) (key : String) : List (String × α) :=
  m.filter (fun p => p.1 ≠ key)

/-- ASCII `ispunct` (C locale): the 32 printable non-alphanumeric characters. -/
def isPunctCpp (c : Char) : Bool :=
  (33 ≤ c.toNat && c.toNat ≤ 47) || (58 ≤ c.toNat && c.toNat ≤ 64) ||
  (91 ≤ c.toNat && c.toNat ≤ 96) || (123 ≤ c.toNat && c.toNat ≤ 126)

/-- ASCII `tolower`: fold `A`–`Z` to `a`–`z`, leave everything else. -/
def toLowerCpp (c : Char) : Char :=
  if 65 ≤ c.toNat && c.toNat ≤ 90 then Char.ofNat (c.toNat + 32) else c

/-- ASCII `isspace` (C locale). -/
def isSpaceCpp (c : Char) : Bool :=
  c.toNat = 32 || (9 ≤ c.toNat && c.toNat ≤ 13)

/-- Lowercase a whole string byte-by-byte
(`std::transform(..., ::tolower)`). -/
def lowerStr (s : String) : String :=
  String.mk (s.toList.map toLowerCpp)

/-- Split a character stream on whitespace, dropping empty chunks
(the behaviour of `std::stringstream >> word`). -/
def splitWsGo : List Char → List Char → List (List Char)
  | [], cur => if cur = [] then [] else [cur.reverse]
  | c :: rest, cur =>
      if isSpaceCpp c then
        if cur = [] then splitWsGo rest [] else cur.reverse :: splitWsGo rest []
      else splitWsGo rest (c :: cur)

/-- All whitespace-separated words of a text. -/
def splitWs (cs : List Char) : List (List Char) := splitWsGo cs []

/-- Strip leading and trailing ASCII punctuation from a word
(`DocumentStore::tokenize`, the two trimming loops). -/
def stripPunct (cs : List Char) : List Char :=
  ((cs.dropWhile isPunctCpp).reverse.dropWhile isPunctCpp).reverse

/-- `DocumentStore::tokenize`: split on whitespace, lowercase, strip
surrounding punctuation, drop empty results. -/
def tokenize (text : String) : List String :=
  ((splitWs text.toList).map (fun w => stripPunct (w.map toLowerCpp))).filter
    (fun w => w ≠ []) |>.map (fun w => String.mk w)

/-- `TermPosition`: one occurrence of a term (`document_store.h`). -/
structure TermPosition where
  docId : String
  field : String
  position : Nat
deriving DecidableEq

/-- `PostingsList`: cached document frequency plus all positions
(`document_store.h`). -/
structure PostingsList where
  documentFrequency : Int
  positions : List TermPosition
deriving DecidableEq

/-- `StoredDocument` (`document_store.h`). -/
structure StoredDocument where
  docId : String
  data : Json
  score : ℚ
  indexTime : Int

/-- The mutable state of a `DocumentStore` (`document_store.h`, private
section): the two indexes, the per-document field-length table and the
running length total.  The reader/writer locks guard this state but do not
change its sequential semantics. -/
structure DocumentStore where
  documents : List (String × StoredDocument)
  invertedIndex : List (String × PostingsList)
  documentFieldLengths : List (String × List (String × Nat))
  averageDocumentLength : ℚ
  totalDocumentLength : Nat

/-- The freshly constructed, empty store. -/
def DocumentStore.empty : DocumentStore :=
  { documents := [], invertedIndex := [], documentFieldLengths := [],
    averageDocumentLength := 0, totalDocumentLength := 0 }

/-- Append one position for each term of `terms` (with its ordinal) to the
inverted index, setting `documentFrequency := positions.size()` exactly as
the loop body of `DocumentStore::indexTextField` does. -/
def addTermPositions (docId fieldName : String) :
    List (String × PostingsList) → Nat → List String → List (String × PostingsList)
  | idx, _, [] => idx
  | idx, pos, term :: rest =>
      let pl := (lookupA idx term).getD { documentFrequency := 0, positions := [] }
      let ps := pl.positions ++ [{ docId := docId, field := fieldName, position := pos }]
      addTermPositions docId fieldName
        (setA idx term { documentFrequency := (ps.length : Int), positions := ps })
        (pos + 1) rest

/-- `DocumentStore::indexTextField`: tokenize, record the field length,
bump the running total, and add every term position. -/
def indexTextField (s : DocumentStore) (docId fieldName text : String) : DocumentStore :=
  let terms := tokenize text
  let inner := (lookupA s.documentFieldLengths docId).getD []
  { s with
    documentFieldLengths :=
      setA s.documentFieldLengths docId (setA inner fieldName terms.length),
    totalDocumentLength := s.totalDocumentLength + terms.length,
    invertedIndex := addTermPositions docId fieldName s.invertedIndex 0 terms }

mutual

/-- `DocumentStore::indexJsonObject`: walk the entries of a JSON object;
non-objects contribute nothing at the top level. -/
def indexJsonObject (docId pre : String) (s : DocumentStore) : Json → DocumentStore
  | .obj kvs => indexJsonEntries docId pre s kvs
  | _ => s

/-- Dispatch on one member value (the `is_string` / `is_object` /
`is_array` chain in the loop body of `DocumentStore::indexJsonObject`);
numbers, booleans and null are not indexed. -/
def indexJsonValue (docId fieldName : String) (s : DocumentStore) : Json → DocumentStore
  | .str t => indexTextField s docId fieldName t
  | .obj kvs => indexJsonEntries docId fieldName s kvs
  | .arr es => indexJsonArray docId fieldName s es
  | _ => s
termination_by structural j => j

/-- One pass over the key/value pairs of an object, extending the field
prefix at each key (loop of `DocumentStore::indexJsonObject`). -/
def indexJsonEntries (docId pre : String) (s : DocumentStore) :
    List (String × Json) → DocumentStore
  | [] => s
  | (k, v) :: rest =>
      let fieldName := if pre = "" then k else pre ++ "." ++ k
      indexJsonEntries docId pre (indexJsonValue docId fieldName s v) rest
termination_by structural l => l

/-- Array case of `DocumentStore::indexJsonObject`: index each string
element under the same field path. -/
def indexJsonArray (docId fieldName : String) (s : DocumentStore) :
    List Json → DocumentStore
  | [] => s
  | e :: rest =>
      let s' :=
        match e with
        | .str t => indexTextField s docId fieldName t
        | _ => s
      indexJsonArray docId fieldName s' rest
termination_by structural l => l

end

/-- `DocumentStore::removeFromIndex`: strip every position of `docId` from
every posting list, refresh `documentFrequency` to `positions.size()`, then
drop posting lists whose positions became empty. -/
def removeFromIndex (s : DocumentStore) (docId : String) : DocumentStore :=
  { s with
    invertedIndex :=
      (s.invertedIndex.map (fun p =>
        let ps := p.2.positions.filter (fun q => q.docId ≠ docId)
        (p.1, { documentFrequency := (ps.length : Int), positions := ps }))).filter
        (fun p => p.2.positions ≠ []) }

/-- `DocumentStore::addDocument`.  `parsed` is the result of `json::parse`
(`none` when the parse threw, which the `catch` turns into `false` before
any state was touched); `now` is the wall-clock millisecond time. -/
def addDocument (s : DocumentStore) (docId : String) (parsed : Option Json)
    (now : Int) : Bool × DocumentStore :=
  match parsed with
  | none => (false, s)
  | some doc =>
      let s1 := if (lookupA s.documents docId).isSome then removeFromIndex s docId else s
      let s2 := { s1 with
        documents := setA s1.documents docId
          { docId := docId, data := doc, score := 0, indexTime := now } }
      (true, indexJsonObject docId "" s2 doc)

/-- `DocumentStore::deleteDocument`: returns whether the id existed and, if
so, removes it from both indexes. -/
def deleteDocument (s : DocumentStore) (docId : String) : Bool × DocumentStore :=
  if (lookupA s.documents docId).isSome then
    let s1 := removeFromIndex s docId
    (true, { s1 with documents := eraseA s1.documents docId })
  else (false, s)

/-- Accumulate the (deduplicated) doc ids of the positions satisfying the
field restriction, in first-seen order (the push-if-absent loops of
`DocumentStore::searchTerm` and the `seenDocs` loops of the scan-based
queries). -/
def collectDocIds (field : String) : List String → List TermPosition → List String
  | acc, [] => acc
  | acc, p :: rest =>
      if (field = "" || p.field = field) && !(acc.contains p.docId) then
        collectDocIds field (acc ++ [p.docId]) rest
      else collectDocIds field acc rest

/-- `DocumentStore::searchTerm`: lowercase the term, look it up, return the
distinct doc ids (optionally field-restricted). -/
def searchTerm (s : DocumentStore) (term field : String) : List String :=
  match lookupA s.invertedIndex (lowerStr term) with
  | none => []
  | some pl => collectDocIds field [] pl.positions

/-- Fuel-indexed Levenshtein recurrence; the fuel argument only serves
structural termination and any fuel at least `|xs| + |ys|` gives the edit
distance. -/
def levFuel : Nat → List Char → List Char → Nat
  | _, [], ys => ys.length
  | _, x :: xs, [] => (x :: xs).length
  | 0, _ :: _, _ :: _ => 0
  | f + 1, x :: xs, y :: ys =>
      if x = y then levFuel f xs ys
      else 1 + min (levFuel f xs (y :: ys)) (min (levFuel f (x :: xs) ys) (levFuel f xs ys))

/-- Levenshtein edit distance, by the textbook recurrence.  The dynamic
programming table of `DocumentStore::levenshteinDistance` computes exactly
this recurrence (cell `(i, j)` holds the distance of the length-`i` and
length-`j` prefixes). -/
def levNat (xs ys : List Char) : Nat :=
  levFuel (xs.length + ys.length) xs ys

/-- `DocumentStore::levenshteinDistance` including its early exit: when the
lengths differ by more than 2 it returns the sentinel 999 without running
the dynamic program. -/
def levenshteinDistance (s1 s2 : String) : Int :=
  if ((s1.toList.length : Int) - (s2.toList.length : Int)).natAbs > 2 then 999
  else (levNat s1.toList s2.toList : Int)

/-- Scan loop of `DocumentStore::searchFuzzy` over the inverted index. -/
def fuzzyGo (lower field : String) (maxDistance : Int) :
    List String → List (String × PostingsList) → List String
  | acc, [] => acc
  | acc, (t, pl) :: rest =>
      let acc' :=
        if levenshteinDistance lower t ≤ maxDistance then
          collectDocIds field acc pl.positions
        else acc
      fuzzyGo lower field maxDistance acc' rest

/-- `DocumentStore::searchFuzzy`: lowercase the query term and collect the
documents of all index terms within `maxDistance`. -/
def searchFuzzy (s : DocumentStore) (term field : String) (maxDistance : Int) :
    List String :=
  fuzzyGo (lowerStr term) field maxDistance [] s.invertedIndex

/-- Scalar value of the expression language (`ExprValue`,
`std::variant<bool, int64_t, double, std::string>`). -/
inductive ExprValue where
  | bool (b : Bool)
  | int (n : Int)
  | float (q : ℚ)
  | str (s : String)
deriving DecidableEq

/-- Declared data types of expression nodes (`DataType`). -/
inductive DataType where
  | BOOL | INT64 | FLOAT64 | STRING | UNKNOWN
deriving DecidableEq

/-- Binary operators (`BinaryOp`). -/
inductive BinaryOp where
  | ADD | SUBTRACT | MULTIPLY | DIVIDE | MODULO | POWER
  | EQUAL | NOT_EQUAL | LESS_THAN | LESS_EQUAL | GREATER_THAN | GREATER_EQUAL
  | AND | OR
deriving DecidableEq

/-- Unary operators (`UnaryOp`). -/
inductive UnaryOp where
  | NEGATE | NOT
deriving DecidableEq

/-- Built-in functions (`Function`). -/
inductive Func where
  | ABS | SQRT | MIN | MAX | FLOOR | CEIL | ROUND
  | LOG | LOG10 | EXP | POW | SIN | COS | TAN
deriving DecidableEq

/-- Expression tree (`Expression` and its subclasses). -/
inductive Expr where
  | const (v : ExprValue) (t : DataType)
  | field (path : String) (t : DataType)
  | binop (op : BinaryOp) (l r : Expr) (t : DataType)
  | unop (op : UnaryOp) (e : Expr) (t : DataType)
  | ternary (c a b : Expr) (t : DataType)
  | func (f : Func) (args : List Expr) (t : DataType)

/-- `to_double` (`expression_evaluator.h`): doubles pass through, int64
is widened, everything else is 0.0. -/
def toDouble : ExprValue → ℚ
  | .float q => q
  | .int n => (n : ℚ)
  | _ => 0

/-- C++ `static_cast<int64_t>(double)`: truncation toward zero. -/
def truncQ (q : ℚ) : Int :=
  if 0 ≤ q then ⌊q⌋ else ⌈q⌉

/-- `to_int64` (`expression_evaluator.h`). -/
def toInt64 : ExprValue → Int
  | .int n => n
  | .float q => truncQ q
  | _ => 0

/-- `to_bool` (`expression_evaluator.h`): only a `bool` alternative is
truthy, everything else is false. -/
def toBool : ExprValue → Bool
  | .bool b => b
  | _ => false

/-- `std::round`: round half away from zero. -/
def cppRound (q : ℚ) : Int :=
  if 0 ≤ q then ⌊q + 1/2⌋ else ⌈q - 1/2⌉

/-- Kernel-computable absolute value on ℚ (`std::abs` on double). -/
def absQ (q : ℚ) : ℚ := if q < 0 then -q else q

/-- Kernel-computable minimum on ℚ (`std::min` on double). -/
def minQ (a b : ℚ) : ℚ := if a ≤ b then a else b

/-- Kernel-computable maximum on ℚ (`std::max` on double). -/
def maxQ (a b : ℚ) : ℚ := if a ≤ b then b else a

/-- Abstract interpretations of the transcendental `<cmath>` routines used
by `FunctionExpression::evaluate` and of `std::pow`.  The claims under
scrutiny do not depend on their values, so theorems quantify over any
interpretation. -/
structure RealFuns where
  sqrtQ : ℚ → ℚ
  logQ : ℚ → ℚ
  log10Q : ℚ → ℚ
  expQ : ℚ → ℚ
  sinQ : ℚ → ℚ
  cosQ : ℚ → ℚ
  tanQ : ℚ → ℚ
  powQ : ℚ → ℚ → ℚ

/-- An arbitrary fixed interpretation, used for concrete evaluations. -/
def zeroRealFuns : RealFuns :=
  { sqrtQ := fun _ => 0, logQ := fun _ => 0, log10Q := fun _ => 0,
    expQ := fun _ => 0, sinQ := fun _ => 0, cosQ := fun _ => 0,
    tanQ := fun _ => 0, powQ := fun _ _ => 0 }

instance {ε α : Type} [DecidableEq ε] [DecidableEq α] : DecidableEq (Except ε α)
  | .error x, .error y =>
      if h : x = y then .isTrue (by rw [h])
      else .isFalse (by intro hc; cases hc; exact h rfl)
  | .error _, .ok _ => .isFalse (by intro hc; cases hc)
  | .ok _, .error _ => .isFalse (by intro hc; cases hc)
  | .ok x, .ok y =>
      if h : x = y then .isTrue (by rw [h])
      else .isFalse (by intro hc; cases hc; exact h rfl)

/-- Split a path on `.` characters, keeping empty segments
(`std::getline(ss, component, '.')`; the trailing-empty difference is
irrelevant because `FieldPath` filters empty components anyway). -/
def splitDots : List Char → List (List Char)
  | [] => [[]]
  | c :: rest =>
      if c = '.' then [] :: splitDots rest
      else
        match splitDots rest with
        | s :: ss => (c :: s) :: ss
        | [] => [[c]]

/-- `FieldPath::FieldPath`: the dot-separated components of a path, with
empty components dropped. -/
def pathComponents (path : String) : List String :=
  ((splitDots path.toList).filter (fun cs => cs ≠ [])).map (fun cs => String.mk cs)

/-- `JSONDocument::getNestedField`: descend through object members; a
non-object or missing member yields nothing. -/
def getNestedField : Json → List String → Option Json
  | j, [] => some j
  | .obj kvs, c :: rest =>
      match lookupA kvs c with
      | some v => getNestedField v rest
      | none => none
  | _, _ :: _ => none

/-- `JSONDocument::jsonToExprValue`: scalars convert, arrays/objects/null
do not. -/
def jsonToExprValue : Json → Option ExprValue
  | .bool b => some (.bool b)
  | .int n => some (.int n)
  | .float q => some (.float q)
  | .str s => some (.str s)
  | _ => none

/-- `JSONDocument::getField`. -/
def getField (doc : Json) (path : String) : Option ExprValue :=
  match getNestedField doc (pathComponents path) with
  | some v => jsonToExprValue v
  | none => none

/-- `JSONDocument::hasField`. -/
def hasField (doc : Json) (path : String) : Bool :=
  (getNestedField doc (pathComponents path)).isSome

/-- `Document::get_field`: `getField(path).value_or(false)`. -/
def getFieldOrFalse (doc : Json) (path : String) : ExprValue :=
  (getField doc path).getD (.bool false)

/-- Default value of a declared data type (`FieldExpression::evaluate`,
missing-field branch). -/
def defaultValue : DataType → Except String ExprValue
  | .BOOL => .ok (.bool false)
  | .INT64 => .ok (.int 0)
  | .FLOAT64 => .ok (.float 0)
  | .STRING => .ok (.str "")
  | .UNKNOWN => .error "Unknown data type"

/-- `BinaryOpExpression::evaluate` applied to already-evaluated operands. -/
def evalBinop (op : BinaryOp) (t : DataType) (lv rv : ExprValue) :
    Except String ExprValue :=
  match op with
  | .ADD =>
      if t = .INT64 then .ok (.int (toInt64 lv + toInt64 rv))
      else .ok (.float (toDouble lv + toDouble rv))
  | .SUBTRACT =>
      if t = .INT64 then .ok (.int (toInt64 lv - toInt64 rv))
      else .ok (.float (toDouble lv - toDouble rv))
  | .MULTIPLY =>
      if t = .INT64 then .ok (.int (toInt64 lv * toInt64 rv))
      else .ok (.float (toDouble lv * toDouble rv))
  | .DIVIDE =>
      if toDouble rv = 0 then .error "Division by zero"
      else if t = .INT64 then
        if toInt64 rv = 0 then .error "Division by zero"
        else .ok (.int (Int.tdiv (toInt64 lv) (toInt64 rv)))
      else .ok (.float (toDouble lv / toDouble rv))
  | .MODULO =>
      if toInt64 rv = 0 then .error "Modulo by zero"
      else .ok (.int (Int.tmod (toInt64 lv) (toInt64 rv)))
  | .POWER => .ok (.float 0)
  | .EQUAL =>
      match lv with
      | .bool _ => .ok (.bool (toBool lv == toBool rv))
      | .str s1 =>
          match rv with
          | .str s2 => .ok (.bool (s1 == s2))
          | _ => .error "bad variant access"
      | _ => .ok (.bool (toDouble lv == toDouble rv))
  | .NOT_EQUAL =>
      match lv with
      | .bool _ => .ok (.bool (toBool lv != toBool rv))
      | .str s1 =>
          match rv with
          | .str s2 => .ok (.bool (s1 != s2))
          | _ => .error "bad variant access"
      | _ => .ok (.bool (toDouble lv != toDouble rv))
  | .LESS_THAN => .ok (.bool (decide (toDouble lv < toDouble rv)))
  | .LESS_EQUAL => .ok (.bool (decide (toDouble lv ≤ toDouble rv)))
  | .GREATER_THAN => .ok (.bool (decide (toDouble rv < toDouble lv)))
  | .GREATER_EQUAL => .ok (.bool (decide (toDouble rv ≤ toDouble lv)))
  | .AND => .ok (.bool (toBool lv && toBool rv))
  | .OR => .ok (.bool (toBool lv || toBool rv))

/-- `FunctionExpression::evaluate` applied to already-evaluated arguments.
Out-of-range `arg_vals[i]` accesses (undefined behaviour in C++) are
modelled as failures. -/
def evalFunc (rf : RealFuns) (f : Func) (t : DataType) (vs : List ExprValue) :
    Except String ExprValue :=
  match f with
  | .ABS =>
      match vs.head? with
      | some v0 => .ok (.float (absQ (toDouble v0)))
      | none => .error "missing argument"
  | .SQRT =>
      match vs.head? with
      | some v0 =>
          if toDouble v0 < 0 then .error "sqrt of negative number"
          else .ok (.float (rf.sqrtQ (toDouble v0)))
      | none => .error "missing argument"
  | .MIN =>
      match vs.head? with
      | some v0 =>
          let m := (vs.drop 1).foldl (fun acc v => minQ acc (toDouble v)) (toDouble v0)
          if t = .INT64 then .ok (.int (truncQ m)) else .ok (.float m)
      | none => .error "missing argument"
  | .MAX =>
      match vs.head? with
      | some v0 =>
          let m := (vs.drop 1).foldl (fun acc v => maxQ acc (toDouble v)) (toDouble v0)
          if t = .INT64 then .ok (.int (truncQ m)) else .ok (.float m)
      | none => .error "missing argument"
  | .FLOOR =>
      match vs.head? with
      | some v0 => .ok (.int ⌊toDouble v0⌋)
      | none => .error "missing argument"
  | .CEIL =>
      match vs.head? with
      | some v0 => .ok (.int ⌈toDouble v0⌉)
      | none => .error "missing argument"
  | .ROUND =>
      match vs.head? with
      | some v0 => .ok (.int (cppRound (toDouble v0)))
      | none => .error "missing argument"
  | .LOG =>
      match vs.head? with
      | some v0 =>
          if toDouble v0 ≤ 0 then .error "log of non-positive number"
          else .ok (.float (rf.logQ (toDouble v0)))
      | none => .error "missing argument"
  | .LOG10 =>
      match vs.head? with
      | some v0 =>
          if toDouble v0 ≤ 0 then .error "log10 of non-positive number"
          else .ok (.float (rf.log10Q (toDouble v0)))
      | none => .error "missing argument"
  | .EXP =>
      match vs.head? with
      | some v0 => .ok (.float (rf.expQ (toDouble v0)))
      | none => .error "missing argument"
  | .POW =>
      match vs.head?, (vs.drop 1).head? with
      | some v0, some v1 => .ok (.float (rf.powQ (toDouble v0) (toDouble v1)))
      | _, _ => .error "missing argument"
  | .SIN =>
      match vs.head? with
      | some v0 => .ok (.float (rf.sinQ (toDouble v0)))
      | none => .error "missing argument"
  | .COS =>
      match vs.head? with
      | some v0 => .ok (.float (rf.cosQ (toDouble v0)))
      | none => .error "missing argument"
  | .TAN =>
      match vs.head? with
      | some v0 => .ok (.float (rf.tanQ (toDouble v0)))
      | none => .error "missing argument"

mutual

/-- `Expression::evaluate` over a parsed JSON document, with thrown
`std::runtime_error`s modelled as `Except.error`. -/
def evalExpr (rf : RealFuns) (doc : Json) : Expr → Except String ExprValue
  | .const v _ => .ok v
  | .field path t =>
      if hasField doc path then .ok (getFieldOrFalse doc path)
      else defaultValue t
  | .binop op l r t =>
      match evalExpr rf doc l with
      | .error e => .error e
      | .ok lv =>
          match evalExpr rf doc r with
          | .error e => .error e
          | .ok rv => evalBinop op t lv rv
  | .unop op e t =>
      match evalExpr rf doc e with
      | .error er => .error er
      | .ok v =>
          match op with
          | .NEGATE =>
              if t = .INT64 then .ok (.int (-(toInt64 v)))
              else .ok (.float (-(toDouble v)))
          | .NOT => .ok (.bool (!toBool v))
  | .ternary c a b _ =>
      match evalExpr rf doc c with
      | .error e => .error e
      | .ok cv => if toBool cv then evalExpr rf doc a else evalExpr rf doc b
  | .func f args t =>
      match evalArgs rf doc args with
      | .error e => .error e
      | .ok vs => evalFunc rf f t vs
termination_by structural e => e

/-- Evaluate a function node's arguments in order, propagating the first
failure (the argument loop of `FunctionExpression::evaluate`). -/
def evalArgs (rf : RealFuns) (doc : Json) : List Expr → Except String (List ExprValue)
  | [] => .ok []
  | a :: rest =>
      match evalExpr rf doc a with
      | .error e => .error e
      | .ok v =>
          match evalArgs rf doc rest with
          | .error e => .error e
          | .ok vs => .ok (v :: vs)
termination_by structural l => l

end

/-- The two statistics counters of an `ExpressionFilter`. -/
structure FilterState where
  evaluationCount : Nat
  matchCount : Nat
deriving DecidableEq

/-- `ExpressionFilter::matches`: bump the evaluation counter, evaluate,
count and report a match; any evaluation failure is a non-match. -/
def filterMatches (rf : RealFuns) (expr : Expr) (doc : Json) (st : FilterState) :
    Bool × FilterState :=
  let st1 := { st with evaluationCount := st.evaluationCount + 1 }
  match evalExpr rf doc expr with
  | .ok v =>
      let matched := toBool v
      if matched then (true, { st1 with matchCount := st1.matchCount + 1 })
      else (false, st1)
  | .error _ => (false, st1)

/-- One hit of a recursively evaluated clause result: the document id and
the score carried by the returned `Document` (`doc->getDocumentId()`,
`doc->getScore()`). -/
structure Hit where
  id : String
  score : ℚ

/-- The ids of a clause result. -/
def hitIds (c : List Hit) : List String :=
  c.map (fun h => h.id)

/-- Set-insert on a list representing an `unordered_set` (membership only;
the order is a model artefact). -/
def insSet (l : List String) (x : String) : List String :=
  if l.contains x then l else l ++ [x]

/-- Add `v` to the running score of `id` (`boolScores[id] += v`). -/
def addScore (m : List (String × ℚ)) (id : String) (v : ℚ) : List (String × ℚ) :=
  setA m id ((lookupA m id).getD 0 + v)

/-- First `must` clause: insert every hit and add its score. -/
def mustFirst : (List String × List (String × ℚ)) → List Hit →
    List String × List (String × ℚ)
  | st, [] => st
  | (docs, scores), h :: rest =>
      mustFirst (insSet docs h.id, addScore scores h.id h.score) rest

/-- Subsequent `must` clause: intersect the running set with the clause's
hits, adding scores of the survivors. -/
def mustInterStep (prev : List String) :
    (List String × List (String × ℚ)) → List Hit → List String × List (String × ℚ)
  | st, [] => st
  | (inter, scores), h :: rest =>
      if prev.contains h.id then
        mustInterStep prev (insSet inter h.id, addScore scores h.id h.score) rest
      else mustInterStep prev (inter, scores) rest

/-- Remaining `must` clauses after the first. -/
def mustRest : (List String × List (String × ℚ)) → List (List Hit) →
    List String × List (String × ℚ)
  | st, [] => st
  | (docs, scores), c :: cs => mustRest (mustInterStep docs ([], scores) c) cs

/-- The `must` loop of `Shard::searchWithoutFilter` (`bool` branch):
intersection of the clauses' doc sets, plus the score sums it records. -/
def processMust (scores : List (String × ℚ)) :
    List (List Hit) → List String × List (String × ℚ)
  | [] => ([], scores)
  | c :: cs => mustRest (mustFirst ([], scores) c) cs

/-- The `should` loop: union the clauses' doc sets, summing scores. -/
def processShould : (List String × List (String × ℚ)) → List (List Hit) →
    List String × List (String × ℚ)
  | st, [] => st
  | (docs, scores), c :: cs =>
      processShould
        (c.foldl (fun st2 h => (insSet st2.1 h.id, addScore st2.2 h.id h.score))
          (docs, scores)) cs

/-- The `must_not` loop: union of the clauses' doc sets. -/
def processMustNot : List String → List (List Hit) → List String
  | docs, [] => docs
  | docs, c :: cs => processMustNot (c.foldl (fun d h => insSet d h.id) docs) cs

/-- The `filter` loop: keep only documents present in every filter
clause's hit set; scores are not touched. -/
def applyBoolFilters : List String → List (List Hit) → List String
  | ids, [] => ids
  | ids, c :: cs =>
      applyBoolFilters
        (ids.filter (fun id => (c.map (fun h => h.id)).contains id)) cs

/-- The complete combination step of the `bool` branch of
`Shard::searchWithoutFilter` (lines 574–667): given the recursively
evaluated per-clause results, compute the matching doc ids and their
scores. -/
def boolCombine (must should mustNot filters : List (List Hit)) :
    List String × List (String × ℚ) :=
  let mustPair := processMust [] must
  let shouldPair := processShould ([], mustPair.2) should
  let mustNotDocs := processMustNot [] mustNot
  let base :=
    if mustPair.1 ≠ [] then mustPair.1
    else if shouldPair.1 ≠ [] then shouldPair.1
    else []
  let surviving := base.filter (fun id => !(mustNotDocs.contains id))
  let scores := surviving.map (fun id => (id, (lookupA shouldPair.2 id).getD 0))
  (applyBoolFilters surviving filters, scores)

/-- Model of `std::numeric_limits<double>::max()` (any upper bound for the
doubles in play works for the claims; the exact binary64 value is
irrelevant). -/
def dblMaxQ : ℚ := 2 ^ 1024

/-- Model of `std::numeric_limits<double>::lowest()`. -/
def dblLowestQ : ℚ := -dblMaxQ

/-- `AggregationResult` (`search_integration.h`), restricted to the fields
the coordinator's merge functions read or write, with the C++ member
initializers as defaults. -/
structure AggregationResult where
  name : String := ""
  type : String := ""
  buckets : List (String × Int) := []
  count : Int := 0
  min : ℚ := 0
  max : ℚ := 0
  avg : ℚ := 0
  sum : ℚ := 0
  sumOfSquares : ℚ := 0
  variance : ℚ := 0
  stdDeviation : ℚ := 0
deriving DecidableEq

/-- `ShardSearchResult` (`distributed_search.h`), restricted to the fields
`mergeAggregations` reads. -/
structure ShardResult where
  success : Bool
  aggregations : List (String × AggregationResult)

/-- Add a term bucket's count into the accumulated per-term totals
(`termCounts[term] += count`). -/
def addBucketCount (m : List (String × Int)) (b : String × Int) : List (String × Int) :=
  setA m b.1 ((lookupA m b.1).getD 0 + b.2)

/-- Ordering used to sort merged term buckets: count weakly descending
(`std::sort` with comparator `a.second > b.second`; ties in unspecified
order, here kept stable). -/
def countGE (a b : String × Int) : Prop := b.2 ≤ a.2

instance : DecidableRel countGE := fun a b => inferInstanceAs (Decidable (b.2 ≤ a.2))

instance : IsTotal (String × Int) countGE := ⟨fun a b => le_total b.2 a.2⟩

instance : IsTrans (String × Int) countGE :=
  ⟨fun _ _ _ h1 h2 => le_trans h2 h1⟩

/-- `DistributedSearchCoordinator::mergeTermsAggregation`: sum bucket
counts per key, sort by count descending, take the top `size`. -/
def mergeTermsAggregation (aggResults : List AggregationResult) (size : Nat) :
    AggregationResult :=
  let termCounts := (aggResults.flatMap (fun a => a.buckets)).foldl addBucketCount []
  { name := ((aggResults.head?).map (fun a => a.name)).getD "",
    type := "terms",
    buckets := (List.insertionSort countGE termCounts).take size }

/-- `DistributedSearchCoordinator::mergeStatsAggregation`: sum counts and
sums, fold min/max from the double sentinels, recompute the average. -/
def mergeStatsAggregation (aggResults : List AggregationResult) : AggregationResult :=
  let count := (aggResults.map (fun a => a.count)).sum
  let sum := (aggResults.map (fun a => a.sum)).sum
  { name := ((aggResults.head?).map (fun a => a.name)).getD "",
    type := "stats",
    count := count,
    sum := sum,
    min := (aggResults.map (fun a => a.min)).foldl minQ dblMaxQ,
    max := (aggResults.map (fun a => a.max)).foldl maxQ dblLowestQ,
    avg := if 0 < count then sum / (count : ℚ) else 0 }

/-- Group the aggregations of the successful shard results by name,
preserving arrival order (`aggGroups[name].push_back`). -/
def groupAggs (shardResults : List ShardResult) :
    List (String × List AggregationResult) :=
  shardResults.foldl
    (fun groups r =>
      if r.success then
        r.aggregations.foldl
          (fun g p => setA g p.1 ((lookupA g p.1).getD [] ++ [p.2])) groups
      else groups) []

/-- `DistributedSearchCoordinator::mergeAggregations`: group by name and
merge each group according to the type of its first member; only `terms`
and `stats` have merge branches, every other type is dropped. -/
def mergeAggregations (shardResults : List ShardResult) :
    List (String × AggregationResult) :=
  (groupAggs shardResults).foldl
    (fun merged g =>
      match g.2.head? with
      | none => merged
      | some first =>
          if first.type = "terms" then
            setA merged g.1 (mergeTermsAggregation g.2 10)
          else if first.type = "stats" then
            setA merged g.1 (mergeStatsAggregation g.2)
          else merged) []

/-- Number of distinct document ids among a posting list's positions (the
quantity the specification calls document frequency). -/
def countDistinctDocIds (ps : List TermPosition) : Nat :=
  ((ps.map (fun p => p.docId)).dedup).length

/-- Sum of the counts of every input bucket carrying key `k` (the merged
per-key total a coordinator merge should produce). -/
def sumBucketCounts (aggResults : List AggregationResult) (k : String) : Int :=
  (((aggResults.flatMap (fun a => a.buckets)).filter (fun b => b.1 = k)).map
    (fun b => b.2)).sum

mutual

/-- Total number of tokens `indexJsonObject` contributes for a document
(sum of `terms.size()` over every `indexTextField` call of the walk). -/
def jsonTokenCount : Json → Nat
  | .obj kvs => entriesTokenCount kvs
  | _ => 0

/-- Token count contributed by one member value. -/
def valueTokenCount : Json → Nat
  | .str t => (tokenize t).length
  | .obj kvs => entriesTokenCount kvs
  | .arr es => arrayTokenCount es
  | _ => 0
termination_by structural j => j

/-- Token count contributed by a list of object entries. -/
def entriesTokenCount : List (String × Json) → Nat
  | [] => 0
  | (_, v) :: rest => valueTokenCount v + entriesTokenCount rest
termination_by structural l => l

/-- Token count contributed by the string elements of an array. -/
def arrayTokenCount : List Json → Nat
  | [] => 0
  | e :: rest =>
      (match e with
       | .str t => (tokenize t).length
       | _ => 0) + arrayTokenCount rest
termination_by structural l => l

end

/-- Store whose index holds the single term `abcdef` for document `d1`
(reachable, e.g. by adding `{"title":"abcdef"}`); concrete input for the
fuzzy-search claim. -/
def fuzzyStore : DocumentStore :=
  { DocumentStore.empty with
    invertedIndex :=
      [("abcdef",
        { documentFrequency := 1,
          positions := [{ docId := "d1", field := "title", position := 0 }] })] }

/-- Concrete document `{"a": {"b": 5}}` for the field-path claim. -/
def nestedDoc : Json := .obj [("a", .obj [("b", .int 5)])]

/-- Concrete store: the empty store after adding document `d1` with body
`{"title":"fox fox"}`. -/
def foxStore : DocumentStore :=
  (addDocument DocumentStore.empty "d1" (some (.obj [("title", .str "fox fox")])) 0).2

/-- Concrete store: the empty store after adding document `d1` with body
`{"title":"red fox"}`. -/
def redFoxStore : DocumentStore :=
  (addDocument DocumentStore.empty "d1" (some (.obj [("title", .str "red fox")])) 0).2

/-- A divide-by-zero expression: `1 / 0` with declared result FLOAT64. -/
def divByZeroExpr : Expr :=
  .binop .DIVIDE (.const (.int 1) .INT64) (.const (.int 0) .INT64) .FLOAT64

/-- The expression `abs(-5/2)` with declared result type INT64. -/
def absIntExpr : Expr :=
  .func .ABS [.const (.float (mkRat (-5) 2)) .FLOAT64] .INT64

/-- An `extended_stats` aggregation result as one shard would report it. -/
def extStatsAgg : AggregationResult :=
  { name := "e", type := "extended_stats", count := 1, sum := 2,
    min := 2, max := 2, avg := 2, sumOfSquares := 4 }

/-- A successful shard result carrying only the `extended_stats`
aggregation above. -/
def extStatsShard : ShardResult :=
  { success := true, aggregations := [("e", extStatsAgg)] }

/-- A `stats` aggregation result used as a concrete merge input. -/
def statsAggA : AggregationResult :=
  { name := "s", type := "stats", count := 2, sum := 10, min := 1, max := 9, avg := 5 }

/-- A second `stats` aggregation result used as a concrete merge input. -/
def statsAggB : AggregationResult :=
  { name := "s", type := "stats", count := 3, sum := 2, min := 0, max := 2,
    avg := mkRat 2 3 }

/-- A `terms` aggregation result used as a concrete merge input. -/
def termsAggA : AggregationResult :=
  { name := "t", type := "terms", buckets := [("x", 3), ("y", 1)] }

/-- A second `terms` aggregation result used as a concrete merge input. -/
def termsAggB : AggregationResult :=
  { name := "t", type := "terms", buckets := [("y", 4)] }

/-- Two successful shard results both reporting the `stats` aggregation
named `s` and a `terms` aggregation named `t`. -/
def statsShards : List ShardResult :=
  [{ success := true, aggregations := [("s", statsAggA), ("t", termsAggA)] },
   { success := true, aggregations := [("s", statsAggB), ("t", termsAggB)] }]

theorem lookupA_eq_none_of_not_mem_keys {α : Type} {m : List (String × α)} {k : String}
    (h : k ∉ m.map Prod.fst) : lookupA m k = none := by
  induction m with
  | nil => rfl
  | cons p rest ih =>
      obtain ⟨k1, v1⟩ := p
      simp only [List.map_cons, List.mem_cons, not_or] at h
      have hk : k1 ≠ k := fun hc => h.1 hc.symm
      simp only [lookupA, if_neg hk]
      exact ih h.2

theorem lookupA_isSome_iff_mem_keys {α : Type} (m : List (String × α)) (k : String) :
    (lookupA m k).isSome = true ↔ k ∈ m.map Prod.fst := by
  induction m with
  | nil => simp [lookupA]
  | cons p rest ih =>
      obtain ⟨k1, v1⟩ := p
      by_cases h : k1 = k
      · subst h
        simp [lookupA]
      · simp only [lookupA, if_neg h, List.map_cons, List.mem_cons, ih]
        constructor
        · intro hm; exact Or.inr hm
        · rintro (hm | hm)
          · exact absurd hm.symm h
          · exact hm

theorem lookupA_setA {α : Type} (m : List (String × α)) (k : String) (v : α)
    (k2 : String) :
    lookupA (setA m k v) k2 = if k = k2 then some v else lookupA m k2 := by
  induction m with
  | nil =>
      by_cases h : k = k2 <;> simp [setA, lookupA, h]
  | cons p rest ih =>
      obtain ⟨k1, v1⟩ := p
      by_cases h1 : k1 = k
      · subst h1
        by_cases h2 : k1 = k2 <;> simp [setA, lookupA, h2]
      · by_cases h2 : k1 = k2
        · subst h2
          have hne : ¬ k = k1 := fun hc => h1 hc.symm
          simp [setA, lookupA, h1, hne]
        · simp [setA, lookupA, h1, h2, ih]

theorem keys_setA {α : Type} (m : List (String × α)) (k : String) (v : α) (a : String) :
    a ∈ (setA m k v).map Prod.fst ↔ a ∈ m.map Prod.fst ∨ a = k := by
  induction m with
  | nil => simp [setA]
  | cons p rest ih =>
      obtain ⟨k1, v1⟩ := p
      by_cases h1 : k1 = k
      · subst h1
        simp only [setA]
        simp only [if_true]
        simp only [List.map_cons, List.mem_cons]
        tauto
      · simp only [setA, if_neg h1, List.map_cons, List.mem_cons, ih]
        tauto

theorem nodup_keys_setA {α : Type} (m : List (String × α)) (k : String) (v : α)
    (h : (m.map Prod.fst).Nodup) : ((setA m k v).map Prod.fst).Nodup := by
  induction m with
  | nil => simp [setA]
  | cons p rest ih =>
      obtain ⟨k1, v1⟩ := p
      simp only [List.map_cons, List.nodup_cons] at h
      by_cases h1 : k1 = k
      · subst h1
        simp only [setA]
        simp only [if_true]
        simp only [List.map_cons, List.nodup_cons]
        exact ⟨h.1, h.2⟩
      · simp only [setA, if_neg h1, List.map_cons, List.nodup_cons]
        refine ⟨fun hc => ?_, ih h.2⟩
        rw [keys_setA] at hc
        rcases hc with hc | hc
        · exact h.1 hc
        · exact h1 hc

theorem mem_of_lookupA_eq_some {α : Type} {m : List (String × α)} {k : String} {v : α}
    (h : lookupA m k = some v) : (k, v) ∈ m := by
  induction m with
  | nil => simp [lookupA] at h
  | cons p rest ih =>
      obtain ⟨k1, v1⟩ := p
      by_cases h1 : k1 = k
      · subst h1
        simp only [lookupA] at h
        simp only [if_true] at h
        simp only [Option.some.injEq] at h
        subst h
        exact List.mem_cons_self _ _
      · simp only [lookupA, if_neg h1] at h
        exact List.mem_cons_of_mem _ (ih h)

theorem lookupA_eq_some_of_mem_nodup {α : Type} {m : List (String × α)} {k : String}
    {v : α} (hnd : (m.map Prod.fst).Nodup) (h : (k, v) ∈ m) : lookupA m k = some v := by
  induction m with
  | nil => simp at h
  | cons p rest ih =>
      obtain ⟨k1, v1⟩ := p
      simp only [List.map_cons, List.nodup_cons] at hnd
      rcases List.mem_cons.mp h with h | h
      · rw [Prod.mk.injEq] at h
        obtain ⟨h1, h2⟩ := h
        subst h1
        subst h2
        simp [lookupA]
      · have hk : k1 ≠ k := by
          intro hc
          subst hc
          exact hnd.1 (List.mem_map.mpr ⟨(k1, v), h, rfl⟩)
        simp only [lookupA, if_neg hk]
        exact ih hnd.2 h

/-- C4.  For every store, id and clock value, `addDocument` on input whose
JSON parse failed returns failure and leaves the entire store state (the
documents map, the inverted index, the field-length table and the running
total) exactly as it was. -/
theorem c4_add_document_parse_failure (s : DocumentStore) (docId : String) (now : Int) :
    addDocument s docId none now = (false, s) := rfl

/-- C1.  Adding the document `{"title":"fox fox"}` to an empty store leaves
the posting list of `fox` with `documentFrequency = 2` (the total position
count) although only one distinct document id appears in its positions, so
the invariant `document_frequency = number of distinct doc ids` fails on
the code as written. -/
theorem c1_df_is_position_count :
    (lookupA foxStore.invertedIndex "fox").map (fun pl => pl.documentFrequency)
        = some 2 ∧
    (lookupA foxStore.invertedIndex "fox").map (fun pl => countDistinctDocIds pl.positions)
        = some 1 ∧
    (lookupA foxStore.invertedIndex "fox").map (fun pl => (pl.positions.length : Int))
        = some 2 := by
  refine ⟨by decide, by decide, by decide⟩

theorem indexTextField_total (s : DocumentStore) (docId fieldName text : String) :
    (indexTextField s docId fieldName text).totalDocumentLength
      = s.totalDocumentLength + (tokenize text).length := rfl

theorem indexTextField_docs (s : DocumentStore) (docId fieldName text : String) :
    (indexTextField s docId fieldName text).documents = s.documents := rfl

theorem indexJsonArray_total (docId fieldName : String) (s : DocumentStore)
    (es : List Json) :
    (indexJsonArray docId fieldName s es).totalDocumentLength
      = s.totalDocumentLength + arrayTokenCount es := by
  induction es generalizing s with
  | nil => simp [indexJsonArray, arrayTokenCount]
  | cons e rest ih =>
      cases e with
      | str t =>
          simp only [indexJsonArray, arrayTokenCount, ih, indexTextField_total]
          omega
      | obj kvs => simp [indexJsonArray, arrayTokenCount, ih]
      | arr es2 => simp [indexJsonArray, arrayTokenCount, ih]
      | int n => simp [indexJsonArray, arrayTokenCount, ih]
      | float q => simp [indexJsonArray, arrayTokenCount, ih]
      | bool b => simp [indexJsonArray, arrayTokenCount, ih]
      | null => simp [indexJsonArray, arrayTokenCount, ih]

mutual

theorem indexJsonValue_total (docId fieldName : String) (s : DocumentStore) (j : Json) :
    (indexJsonValue docId fieldName s j).totalDocumentLength
      = s.totalDocumentLength + valueTokenCount j := by
  cases j with
  | str t => simp [indexJsonValue, valueTokenCount, indexTextField_total]
  | obj kvs =>
      simp only [indexJsonValue, valueTokenCount]
      exact indexJsonEntries_total docId fieldName s kvs
  | arr es => simp [indexJsonValue, valueTokenCount, indexJsonArray_total]
  | int n => simp [indexJsonValue, valueTokenCount]
  | float q => simp [indexJsonValue, valueTokenCount]
  | bool b => simp [indexJsonValue, valueTokenCount]
  | null => simp [indexJsonValue, valueTokenCount]
termination_by structural j

theorem indexJsonEntries_total (docId pre : String) (s : DocumentStore)
    (kvs : List (String × Json)) :
    (indexJsonEntries docId pre s kvs).totalDocumentLength
      = s.totalDocumentLength + entriesTokenCount kvs := by
  cases kvs with
  | nil => simp [indexJsonEntries, entriesTokenCount]
  | cons p rest =>
      obtain ⟨k, v⟩ := p
      simp only [indexJsonEntries, entriesTokenCount]
      rw [indexJsonEntries_total docId pre _ rest,
        indexJsonValue_total docId _ s v]
      omega
termination_by structural kvs

end

theorem indexJsonObject_total (docId pre : String) (s : DocumentStore) (j : Json) :
    (indexJsonObject docId pre s j).totalDocumentLength
      = s.totalDocumentLength + jsonTokenCount j := by
  cases j with
  | obj kvs =>
      simp only [indexJsonObject, jsonTokenCount]
      exact indexJsonEntries_total docId pre s kvs
  | str t => simp [indexJsonObject, jsonTokenCount]
  | arr es => simp [indexJsonObject, jsonTokenCount]
  | int n => simp [indexJsonObject, jsonTokenCount]
  | float q => simp [indexJsonObject, jsonTokenCount]
  | bool b => simp [indexJsonObject, jsonTokenCount]
  | null => simp [indexJsonObject, jsonTokenCount]

theorem removeFromIndex_fieldLengths (s : DocumentStore) (d : String) :
    (removeFromIndex s d).documentFieldLengths = s.documentFieldLengths := rfl

theorem removeFromIndex_total (s : DocumentStore) (d : String) :
    (removeFromIndex s d).totalDocumentLength = s.totalDocumentLength := rfl

/-- C10.  `deleteDocument` never touches the per-document field-length
table or the running `total_document_length`, and re-adding an existing
doc id adds the new document's token count to `total_document_length`
without subtracting the old contribution; the BM25 length statistics
therefore retain contributions of deleted and replaced documents. -/
theorem c10_length_stats_retained (s : DocumentStore) (d docId : String) (doc : Json)
    (now : Int) (hex : (lookupA s.documents docId).isSome = true) :
    (deleteDocument s d).2.documentFieldLengths = s.documentFieldLengths ∧
    (deleteDocument s d).2.totalDocumentLength = s.totalDocumentLength ∧
    (addDocument s docId (some doc) now).2.totalDocumentLength
      = s.totalDocumentLength + jsonTokenCount doc := by
  refine ⟨?_, ?_, ?_⟩
  · by_cases h : (lookupA s.documents d).isSome <;>
      simp [deleteDocument, h, removeFromIndex_fieldLengths]
  · by_cases h : (lookupA s.documents d).isSome <;>
      simp [deleteDocument, h, removeFromIndex_total]
  · simp only [addDocument, hex, if_pos]
    rw [indexJsonObject_total]
    rfl

/-- Witness for C10 at the concrete store holding document `d1` with body
`{"title":"red fox"}`, re-added with body `{"title":"fox"}`. -/
theorem c10_length_stats_retained_witness :
    (deleteDocument redFoxStore "d1").2.totalDocumentLength = 2 ∧
    (addDocument redFoxStore "d1" (some (.obj [("title", .str "fox")])) 1).2.totalDocumentLength
      = 3 := by
  have h := c10_length_stats_retained redFoxStore "d1" "d1"
    (.obj [("title", .str "fox")]) 1 (by decide)
  refine ⟨?_, ?_⟩
  · rw [h.2.1]; decide
  · rw [h.2.2]; decide

theorem lookupA_strip_positions (idx : List (String × PostingsList)) (d t : String)
    (hnd : (idx.map Prod.fst).Nodup) :
    lookupA ((idx.map (fun p =>
        (p.1, { documentFrequency := ((p.2.positions.filter (fun q => q.docId ≠ d)).length : Int),
                positions := p.2.positions.filter (fun q => q.docId ≠ d) : PostingsList}))).filter
        (fun p => p.2.positions ≠ [])) t
      = match lookupA idx t with
        | none => none
        | some pl =>
            if pl.positions.filter (fun q => q.docId ≠ d) = [] then none
            else some { documentFrequency := ((pl.positions.filter (fun q => q.docId ≠ d)).length : Int),
                        positions := pl.positions.filter (fun q => q.docId ≠ d) } := by
  induction idx with
  | nil => rfl
  | cons p rest ih =>
      obtain ⟨k, pl⟩ := p
      simp only [List.map_cons, List.nodup_cons] at hnd
      have hsub : ∀ u : String,
          u ∈ ((rest.map (fun p =>
            (p.1, { documentFrequency := ((p.2.positions.filter (fun q => q.docId ≠ d)).length : Int),
                    positions := p.2.positions.filter (fun q => q.docId ≠ d) : PostingsList}))).filter
            (fun p => p.2.positions ≠ [])).map Prod.fst → u ∈ rest.map Prod.fst := by
        intro u hu
        rcases List.mem_map.mp hu with ⟨q, hq, hqe⟩
        rcases List.mem_filter.mp hq with ⟨hq1, _⟩
        rcases List.mem_map.mp hq1 with ⟨r, hr, hre⟩
        subst hqe
        subst hre
        exact List.mem_map.mpr ⟨r, hr, rfl⟩
      by_cases hc : pl.positions.filter (fun q => q.docId ≠ d) = []
      · by_cases hk : k = t
        · subst hk
          have hnone : lookupA ((rest.map (fun p =>
              (p.1, { documentFrequency := ((p.2.positions.filter (fun q => q.docId ≠ d)).length : Int),
                      positions := p.2.positions.filter (fun q => q.docId ≠ d) : PostingsList}))).filter
              (fun p => p.2.positions ≠ [])) k = none := by
            apply lookupA_eq_none_of_not_mem_keys
            intro hm
            exact hnd.1 (hsub k hm)
          simp only [List.map_cons, List.filter_cons]
          rw [if_neg (by simpa using hc)]
          rw [hnone]
          simp only [lookupA, if_true]
          rw [if_pos hc]
        · simp only [List.map_cons, List.filter_cons]
          rw [if_neg (by simpa using hc)]
          rw [ih hnd.2]
          simp only [lookupA, if_neg hk]
      · by_cases hk : k = t
        · subst hk
          simp only [List.map_cons, List.filter_cons]
          rw [if_pos (by simpa using hc)]
          simp only [lookupA, if_true]
          rw [if_neg hc]
        · simp only [List.map_cons, List.filter_cons]
          rw [if_pos (by simpa using hc)]
          simp only [lookupA, if_neg hk]
          exact ih hnd.2

theorem not_mem_collectDocIds (field d : String) (acc : List String)
    (ps : List TermPosition) (hp : ∀ p ∈ ps, p.docId ≠ d) (ha : d ∉ acc) :
    d ∉ collectDocIds field acc ps := by
  induction ps generalizing acc with
  | nil => simpa [collectDocIds] using ha
  | cons p rest ih =>
      simp only [collectDocIds]
      have hpd : p.docId ≠ d := hp p (List.mem_cons_self _ _)
      have hrest : ∀ q ∈ rest, q.docId ≠ d := fun q hq => hp q (List.mem_cons_of_mem _ hq)
      by_cases hcond : ((field = "" || p.field = field) && !(acc.contains p.docId)) = true
      · rw [if_pos hcond]
        apply ih _ hrest
        intro hm
        rcases List.mem_append.mp hm with hm | hm
        · exact ha hm
        · simp only [List.mem_singleton] at hm
          exact hpd hm.symm
      · rw [if_neg hcond]
        exact ih _ hrest ha

/-- C3.  `deleteDocument` returns true exactly when the id was stored;
when it was, every term's posting list afterwards holds exactly the
original positions whose `doc_id` differs from the deleted id (with the
cached frequency refreshed), posting-list keys whose positions became
empty are erased, surviving posting lists are never empty and never
reference the deleted id, and no term query on the resulting store can
return the deleted id. -/
theorem c3_delete_document (s : DocumentStore) (d : String)
    (hnd : (s.invertedIndex.map Prod.fst).Nodup) :
    ((deleteDocument s d).1 = true ↔ (lookupA s.documents d).isSome = true) ∧
    ((deleteDocument s d).1 = true →
      ∀ t, lookupA (deleteDocument s d).2.invertedIndex t
        = match lookupA s.invertedIndex t with
          | none => none
          | some pl =>
              if pl.positions.filter (fun q => q.docId ≠ d) = [] then none
              else some { documentFrequency :=
                            ((pl.positions.filter (fun q => q.docId ≠ d)).length : Int),
                          positions := pl.positions.filter (fun q => q.docId ≠ d) }) ∧
    ((deleteDocument s d).1 = true →
      ∀ t pl, lookupA (deleteDocument s d).2.invertedIndex t = some pl →
        (∀ p ∈ pl.positions, p.docId ≠ d) ∧ pl.positions ≠ []) ∧
    ((deleteDocument s d).1 = true →
      ∀ t f, d ∉ searchTerm (deleteDocument s d).2 t f) := by
  by_cases hex : (lookupA s.documents d).isSome = true
  · have hdel : deleteDocument s d
        = (true, { removeFromIndex s d with
                    documents := eraseA (removeFromIndex s d).documents d }) := by
      simp [deleteDocument, hex]
    have hidx : (deleteDocument s d).2.invertedIndex
        = (removeFromIndex s d).invertedIndex := by rw [hdel]
    have hchar : ∀ t, lookupA (deleteDocument s d).2.invertedIndex t
        = match lookupA s.invertedIndex t with
          | none => none
          | some pl =>
              if pl.positions.filter (fun q => q.docId ≠ d) = [] then none
              else some { documentFrequency :=
                            ((pl.positions.filter (fun q => q.docId ≠ d)).length : Int),
                          positions := pl.positions.filter (fun q => q.docId ≠ d) } := by
      intro t
      rw [hidx]
      exact lookupA_strip_positions s.invertedIndex d t hnd
    refine ⟨by rw [hdel]; simpa using hex, fun _ => hchar, fun _ => ?_, fun _ => ?_⟩
    · intro t pl hl
      rw [hchar t] at hl
      rcases hcase : lookupA s.invertedIndex t with _ | pl0
      · rw [hcase] at hl; simp at hl
      · rw [hcase] at hl
        simp only at hl
        by_cases hemp : pl0.positions.filter (fun q => q.docId ≠ d) = []
        · rw [if_pos hemp] at hl; simp at hl
        · rw [if_neg hemp] at hl
          simp only [Option.some.injEq] at hl
          subst hl
          refine ⟨?_, hemp⟩
          intro p hp
          exact of_decide_eq_true (List.mem_filter.mp hp).2
    · intro t f
      unfold searchTerm
      rcases hcase : lookupA (deleteDocument s d).2.invertedIndex (lowerStr t) with _ | pl
      · simp
      · have hchar2 := hchar (lowerStr t)
        rw [hcase] at hchar2
        rcases hcase2 : lookupA s.invertedIndex (lowerStr t) with _ | pl0
        · rw [hcase2] at hchar2; simp at hchar2
        · rw [hcase2] at hchar2
          simp only at hchar2
          by_cases hemp : pl0.positions.filter (fun q => q.docId ≠ d) = []
          · rw [if_pos hemp] at hchar2; simp at hchar2
          · rw [if_neg hemp] at hchar2
            simp only [Option.some.injEq] at hchar2
            apply not_mem_collectDocIds
            · intro p hp
              rw [hchar2] at hp
              simp only at hp
              exact of_decide_eq_true (List.mem_filter.mp hp).2
            · simp
  · have hdel : deleteDocument s d = (false, s) := by
      simp only [deleteDocument]
      rw [if_neg hex]
    refine ⟨?_, ?_, ?_, ?_⟩ <;> rw [hdel] <;> simp [hex]

/-- Witness for C3 at the concrete store holding document `d1` with body
`{"title":"red fox"}`. -/
theorem c3_delete_document_witness :
    (deleteDocument redFoxStore "d1").1 = true ∧
    lookupA (deleteDocument redFoxStore "d1").2.invertedIndex "fox" = none ∧
    "d1" ∉ searchTerm (deleteDocument redFoxStore "d1").2 "fox" "" := by
  have h := c3_delete_document redFoxStore "d1" (by decide)
  have hb : (deleteDocument redFoxStore "d1").1 = true := h.1.mpr (by decide)
  refine ⟨hb, ?_, h.2.2.2 hb "fox" ""⟩
  rw [h.2.1 hb "fox"]
  decide

/-- C9 counterexample.  On the document `{"a":{"b":5}}` the path `a..b`,
which contains an empty component, resolves to the field `a.b`: `getField`
returns the value 5 and `hasField` returns true, contradicting the claim
that such paths yield no field. -/
theorem c9_empty_component_counterexample :
    getField nestedDoc "a..b" = some (.int 5) ∧ hasField nestedDoc "a..b" = true := by
  exact ⟨by decide, by decide⟩

/-- C9 amended.  `FieldPath` drops empty components instead of rejecting
the path: `getField` and `hasField` depend only on the list of non-empty
dot-separated components, that list never contains an empty component, and
two paths with the same non-empty components (such as `a..b` and `a.b`)
resolve identically. -/
theorem c9_path_components_amended (doc : Json) (p1 p2 : String)
    (h : pathComponents p1 = pathComponents p2) :
    getField doc p1 = getField doc p2 ∧
    hasField doc p1 = hasField doc p2 ∧
    ∀ c ∈ pathComponents p1, c ≠ "" := by
  refine ⟨by simp [getField, h], by simp [hasField, h], ?_⟩
  intro c hc
  rcases List.mem_map.mp hc with ⟨cs, hcs, hce⟩
  rcases List.mem_filter.mp hcs with ⟨_, hne⟩
  subst hce
  intro hc0
  have : cs = [] := congrArg String.data hc0
  simp [this] at hne

/-- Witness for the amended C9 at `{"a":{"b":5}}` with paths `a..b` and
`a.b`. -/
theorem c9_path_components_amended_witness :
    getField nestedDoc "a..b" = getField nestedDoc "a.b" ∧
    hasField nestedDoc "a..b" = hasField nestedDoc "a.b" := by
  have h := c9_path_components_amended nestedDoc "a..b" "a.b" (by decide)
  exact ⟨h.1, h.2.1⟩

/-- C7 counterexample.  Evaluating `abs(-5/2)` whose function node declares
result type INT64 yields the FLOAT64 value 5/2 (a non-integer), not an
INT64 result: `FunctionExpression::evaluate` ignores the declared result
type for `abs`. -/
theorem c7_abs_returns_float_counterexample :
    evalExpr zeroRealFuns (Json.obj []) absIntExpr = .ok (.float (mkRat 5 2)) ∧
    (mkRat 5 2).den = 2 := by
  exact ⟨by decide, by decide⟩

/-- C7 amended.  `floor`, `ceil` and `round` always return INT64 results;
`abs` always returns a FLOAT64 result, even when the function node's
declared result type is INT64. -/
theorem c7_function_result_types_amended (rf : RealFuns) (doc : Json)
    (args : List Expr) (t : DataType) (v : ExprValue) :
    (evalExpr rf doc (.func .FLOOR args t) = .ok v → ∃ n, v = .int n) ∧
    (evalExpr rf doc (.func .CEIL args t) = .ok v → ∃ n, v = .int n) ∧
    (evalExpr rf doc (.func .ROUND args t) = .ok v → ∃ n, v = .int n) ∧
    (evalExpr rf doc (.func .ABS args t) = .ok v → ∃ q, v = .float q) := by
  refine ⟨?_, ?_, ?_, ?_⟩ <;>
    · intro h
      rcases harg : evalArgs rf doc args with e | vs
      · simp only [evalExpr, harg] at h
        exact Except.noConfusion h
      · simp only [evalExpr, harg] at h
        rcases hv : vs.head? with _ | v0
        · simp only [evalFunc, hv] at h
          exact Except.noConfusion h
        · simp only [evalFunc, hv, Except.ok.injEq] at h
          exact ⟨_, h.symm⟩

/-- Witness for the amended C7: `floor(7/2)` evaluates to the INT64 value 3
and `abs(-5/2)` to a FLOAT64 value. -/
theorem c7_function_result_types_witness :
    (∃ n, ExprValue.int 3 = ExprValue.int n) ∧
    (∃ q, ExprValue.float (mkRat 5 2) = ExprValue.float q) := by
  constructor
  · exact (c7_function_result_types_amended zeroRealFuns (Json.obj [])
      [.const (.float (mkRat 7 2)) .FLOAT64] .INT64 (.int 3)).1 (by decide)
  · exact (c7_function_result_types_amended zeroRealFuns (Json.obj [])
      [.const (.float (mkRat (-5) 2)) .FLOAT64] .INT64 (.float (mkRat 5 2))).2.2.2 (by decide)

/-- C8.  Whenever evaluating the compiled predicate on a document fails
(division or modulo by zero and the other modelled failures),
`ExpressionFilter::matches` reports a non-match, increments the evaluation
counter, and leaves the match counter untouched. -/
theorem c8_filter_failure_nonmatch (rf : RealFuns) (expr : Expr) (doc : Json)
    (st : FilterState) (e : String) (h : evalExpr rf doc expr = .error e) :
    filterMatches rf expr doc st
      = (false, { evaluationCount := st.evaluationCount + 1,
                  matchCount := st.matchCount }) := by
  simp [filterMatches, h]

/-- Witness for C8: dividing by zero in a filter expression yields a
non-match with one evaluation counted and no match counted. -/
theorem c8_filter_failure_nonmatch_witness :
    filterMatches zeroRealFuns divByZeroExpr (Json.obj [])
        { evaluationCount := 0, matchCount := 0 }
      = (false, { evaluationCount := 1, matchCount := 0 }) := by
  exact c8_filter_failure_nonmatch zeroRealFuns divByZeroExpr (Json.obj [])
    { evaluationCount := 0, matchCount := 0 } "Division by zero" (by decide)

theorem levFuel_length_bound : ∀ (f : Nat) (xs ys : List Char),
    xs.length + ys.length ≤ f →
    xs.length ≤ ys.length + levFuel f xs ys ∧
    ys.length ≤ xs.length + levFuel f xs ys := by
  intro f
  induction f with
  | zero =>
      intro xs ys hf
      cases xs with
      | nil => simp [levFuel]
      | cons x xs =>
          cases ys with
          | nil => simp [levFuel]
          | cons y ys => simp at hf
  | succ f ihf =>
      intro xs ys hf
      cases xs with
      | nil => simp [levFuel]
      | cons x xs =>
          cases ys with
          | nil => simp [levFuel]
          | cons y ys =>
              have h1 := ihf xs (y :: ys) (by simp at hf ⊢; omega)
              have h2 := ihf (x :: xs) ys (by simp at hf ⊢; omega)
              have h3 := ihf xs ys (by simp at hf ⊢; omega)
              by_cases hxy : x = y
              · simp only [levFuel, if_pos hxy, List.length_cons] at *
                omega
              · simp only [levFuel, if_neg hxy, List.length_cons] at *
                omega

theorem levNat_length_bound (xs ys : List Char) :
    xs.length ≤ ys.length + levNat xs ys ∧ ys.length ≤ xs.length + levNat xs ys := by
  exact levFuel_length_bound (xs.length + ys.length) xs ys le_rfl

theorem mem_collectDocIds (field d : String) (acc : List String)
    (ps : List TermPosition) :
    d ∈ collectDocIds field acc ps ↔
      d ∈ acc ∨ ∃ p ∈ ps, p.docId = d ∧ (field = "" ∨ p.field = field) := by
  induction ps generalizing acc with
  | nil => simp [collectDocIds]
  | cons p rest ih =>
      simp only [collectDocIds]
      by_cases hcond : ((field = "" || p.field = field) && !(acc.contains p.docId)) = true
      · rw [if_pos hcond]
        rw [ih]
        simp only [Bool.and_eq_true, Bool.not_eq_true', Bool.or_eq_true,
          decide_eq_true_eq] at hcond
        obtain ⟨hf, _⟩ := hcond
        constructor
        · rintro (hmem | ⟨q, hq, hqd, hqf⟩)
          · rcases List.mem_append.mp hmem with h | h
            · exact Or.inl h
            · simp only [List.mem_singleton] at h
              exact Or.inr ⟨p, List.mem_cons_self _ _, h.symm, hf⟩
          · exact Or.inr ⟨q, List.mem_cons_of_mem _ hq, hqd, hqf⟩
        · rintro (hmem | ⟨q, hq, hqd, hqf⟩)
          · exact Or.inl (List.mem_append.mpr (Or.inl hmem))
          · rcases List.mem_cons.mp hq with hq | hq
            · subst hq
              exact Or.inl (List.mem_append.mpr (Or.inr (by simp [hqd])))
            · exact Or.inr ⟨q, hq, hqd, hqf⟩
      · rw [if_neg hcond]
        rw [ih]
        simp only [Bool.and_eq_true, Bool.not_eq_true', Bool.or_eq_true,
          decide_eq_true_eq, not_and] at hcond
        constructor
        · rintro (hmem | ⟨q, hq, hqd, hqf⟩)
          · exact Or.inl hmem
          · exact Or.inr ⟨q, List.mem_cons_of_mem _ hq, hqd, hqf⟩
        · rintro (hmem | ⟨q, hq, hqd, hqf⟩)
          · exact Or.inl hmem
          · rcases List.mem_cons.mp hq with hq | hq
            · subst hq
              have hct : acc.contains q.docId = true := by
                have := hcond hqf
                simpa using this
              have hmem2 : q.docId ∈ acc := by simpa using hct
              exact Or.inl (hqd ▸ hmem2)
            · exact Or.inr ⟨q, hq, hqd, hqf⟩

theorem mem_fuzzyGo (lower field : String) (maxDistance : Int) (acc : List String)
    (entries : List (String × PostingsList)) (d : String) :
    d ∈ fuzzyGo lower field maxDistance acc entries ↔
      d ∈ acc ∨ ∃ t pl, (t, pl) ∈ entries ∧ levenshteinDistance lower t ≤ maxDistance ∧
        ∃ p ∈ pl.positions, p.docId = d ∧ (field = "" ∨ p.field = field) := by
  induction entries generalizing acc with
  | nil => simp [fuzzyGo]
  | cons e rest ih =>
      obtain ⟨t0, pl0⟩ := e
      simp only [fuzzyGo]
      by_cases hdist : levenshteinDistance lower t0 ≤ maxDistance
      · rw [if_pos hdist, ih, mem_collectDocIds]
        constructor
        · rintro ((hmem | ⟨p, hp, hpd, hpf⟩) | ⟨t, pl, hm, hd2, hpos⟩)
          · exact Or.inl hmem
          · exact Or.inr ⟨t0, pl0, List.mem_cons_self _ _, hdist, p, hp, hpd, hpf⟩
          · exact Or.inr ⟨t, pl, List.mem_cons_of_mem _ hm, hd2, hpos⟩
        · rintro (hmem | ⟨t, pl, hm, hd2, p, hp, hpd, hpf⟩)
          · exact Or.inl (Or.inl hmem)
          · rcases List.mem_cons.mp hm with hm | hm
            · rw [Prod.mk.injEq] at hm
              obtain ⟨hm1, hm2⟩ := hm
              subst hm1
              subst hm2
              exact Or.inl (Or.inr ⟨p, hp, hpd, hpf⟩)
            · exact Or.inr ⟨t, pl, hm, hd2, p, hp, hpd, hpf⟩
      · rw [if_neg hdist, ih]
        constructor
        · rintro (hmem | ⟨t, pl, hm, hd2, hpos⟩)
          · exact Or.inl hmem
          · exact Or.inr ⟨t, pl, List.mem_cons_of_mem _ hm, hd2, hpos⟩
        · rintro (hmem | ⟨t, pl, hm, hd2, hpos⟩)
          · exact Or.inl hmem
          · rcases List.mem_cons.mp hm with hm | hm
            · rw [Prod.mk.injEq] at hm
              obtain ⟨hm1, hm2⟩ := hm
              subst hm1
              subst hm2
              exact absurd hd2 hdist
            · exact Or.inr ⟨t, pl, hm, hd2, hpos⟩

theorem levenshteinDistance_le_iff (s1 s2 : String) (maxDistance : Int)
    (h : maxDistance ≤ 2) :
    (levenshteinDistance s1 s2 ≤ maxDistance ↔
      (levNat s1.toList s2.toList : Int) ≤ maxDistance) := by
  unfold levenshteinDistance
  by_cases hd : ((s1.toList.length : Int) - (s2.toList.length : Int)).natAbs > 2
  · rw [if_pos hd]
    have hb := levNat_length_bound s1.toList s2.toList
    constructor
    · intro h9
      omega
    · intro hl
      omega
  · rw [if_neg hd]

/-- C6 counterexample.  With `max_distance = 3` the index term `abcdef` is
at Levenshtein distance 3 from the query term `abc`, yet `searchFuzzy`
returns no documents: the early-out in `levenshteinDistance` fires on any
length difference greater than 2 (not greater than `max_distance`) and
reports the sentinel 999. -/
theorem c6_fuzzy_early_exit_counterexample :
    searchFuzzy fuzzyStore "abc" "" 3 = [] ∧
    (levNat "abc".toList "abcdef".toList : Int) = 3 ∧
    lookupA fuzzyStore.invertedIndex "abcdef"
      = some { documentFrequency := 1,
               positions := [{ docId := "d1", field := "title", position := 0 }] } := by
  exact ⟨by decide, by decide, by decide⟩

/-- C6 amended.  Provided `max_distance ≤ 2` (which includes the default
of 2), `searchFuzzy` returns exactly the documents of index terms whose
Levenshtein distance from the lowercased query term is at most
`max_distance`; in that regime the early-out only skips terms whose true
distance already exceeds `max_distance`. -/
theorem c6_search_fuzzy_amended (s : DocumentStore) (term field : String)
    (maxDistance : Int) (h : maxDistance ≤ 2) (d : String) :
    d ∈ searchFuzzy s term field maxDistance ↔
      ∃ t pl, (t, pl) ∈ s.invertedIndex ∧
        (levNat (lowerStr term).toList t.toList : Int) ≤ maxDistance ∧
        ∃ p ∈ pl.positions, p.docId = d ∧ (field = "" ∨ p.field = field) := by
  unfold searchFuzzy
  rw [mem_fuzzyGo]
  simp only [List.not_mem_nil, false_or]
  constructor
  · rintro ⟨t, pl, hm, hd2, hpos⟩
    exact ⟨t, pl, hm, (levenshteinDistance_le_iff (lowerStr term) t maxDistance h).mp hd2, hpos⟩
  · rintro ⟨t, pl, hm, hd2, hpos⟩
    exact ⟨t, pl, hm, (levenshteinDistance_le_iff (lowerStr term) t maxDistance h).mpr hd2, hpos⟩

/-- Witness for the amended C6 at the concrete one-term store: the exact
term matches at distance 0 with `max_distance = 0 ≤ 2`. -/
theorem c6_search_fuzzy_witness :
    "d1" ∈ searchFuzzy fuzzyStore "abcdef" "" 0 := by
  refine (c6_search_fuzzy_amended fuzzyStore "abcdef" "" 0 (by decide) "d1").mpr ?_
  refine ⟨"abcdef", ⟨1, [⟨"d1", "title", 0⟩]⟩, by decide, by decide, ?_⟩
  exact ⟨⟨"d1", "title", 0⟩, by decide, rfl, by decide⟩

theorem mem_insSet (l : List String) (x id : String) :
    id ∈ insSet l x ↔ id ∈ l ∨ id = x := by
  unfold insSet
  by_cases h : l.contains x = true
  · rw [if_pos h]
    have hx : x ∈ l := by simpa using h
    constructor
    · exact fun hm => Or.inl hm
    · rintro (hm | hm)
      · exact hm
      · exact hm ▸ hx
  · rw [if_neg h]
    simp [List.mem_append]

theorem mem_mustFirst (c : List Hit) : ∀ (docs : List String)
    (scores : List (String × ℚ)) (id : String),
    id ∈ (mustFirst (docs, scores) c).1 ↔ id ∈ docs ∨ id ∈ hitIds c := by
  induction c with
  | nil => intro docs scores id; simp [mustFirst, hitIds]
  | cons h rest ih =>
      intro docs scores id
      simp only [mustFirst, ih, mem_insSet, hitIds, List.map_cons, List.mem_cons]
      simp only [hitIds] at *
      tauto

theorem mem_mustInterStep (c : List Hit) : ∀ (prev inter : List String)
    (scores : List (String × ℚ)) (id : String),
    id ∈ (mustInterStep prev (inter, scores) c).1 ↔
      id ∈ inter ∨ (id ∈ hitIds c ∧ id ∈ prev) := by
  induction c with
  | nil => intro prev inter scores id; simp [mustInterStep, hitIds]
  | cons h rest ih =>
      intro prev inter scores id
      simp only [mustInterStep]
      by_cases hc : prev.contains h.id = true
      · rw [if_pos hc]
        have hmem : h.id ∈ prev := by simpa using hc
        simp only [ih, mem_insSet, hitIds, List.map_cons, List.mem_cons]
        simp only [hitIds] at *
        constructor
        · rintro ((hm | hm) | hm)
          · exact Or.inl hm
          · exact Or.inr ⟨Or.inl hm, hm ▸ hmem⟩
          · exact Or.inr ⟨Or.inr hm.1, hm.2⟩
        · rintro (hm | ⟨(hm | hm), hp⟩)
          · exact Or.inl (Or.inl hm)
          · exact Or.inl (Or.inr hm)
          · exact Or.inr ⟨hm, hp⟩
      · rw [if_neg hc]
        have hmem : h.id ∉ prev := by simpa using hc
        simp only [ih, hitIds, List.map_cons, List.mem_cons]
        simp only [hitIds] at *
        constructor
        · rintro (hm | hm)
          · exact Or.inl hm
          · exact Or.inr ⟨Or.inr hm.1, hm.2⟩
        · rintro (hm | ⟨(hm | hm), hp⟩)
          · exact Or.inl hm
          · exact absurd (hm ▸ hp) hmem
          · exact Or.inr ⟨hm, hp⟩

theorem mem_mustRest (cs : List (List Hit)) : ∀ (docs : List String)
    (scores : List (String × ℚ)) (id : String),
    id ∈ (mustRest (docs, scores) cs).1 ↔ id ∈ docs ∧ ∀ c ∈ cs, id ∈ hitIds c := by
  induction cs with
  | nil => intro docs scores id; simp [mustRest]
  | cons c rest ih =>
      intro docs scores id
      simp only [mustRest]
      have hstep : mustInterStep docs ([], scores) c
          = ((mustInterStep docs ([], scores) c).1, (mustInterStep docs ([], scores) c).2) := rfl
      rw [hstep, ih, mem_mustInterStep]
      simp only [List.not_mem_nil, false_or, List.mem_cons]
      constructor
      · rintro ⟨⟨hm, hp⟩, hall⟩
        exact ⟨hp, fun c2 hc2 => hc2.elim (fun he => he ▸ hm) (hall c2)⟩
      · rintro ⟨hp, hall⟩
        exact ⟨⟨hall c (Or.inl rfl), hp⟩, fun c2 hc2 => hall c2 (Or.inr hc2)⟩

theorem mem_processMust (must : List (List Hit)) (scores : List (String × ℚ))
    (id : String) :
    id ∈ (processMust scores must).1 ↔ must ≠ [] ∧ ∀ c ∈ must, id ∈ hitIds c := by
  cases must with
  | nil => simp [processMust]
  | cons c rest =>
      simp only [processMust]
      have hfirst : mustFirst ([], scores) c
          = ((mustFirst ([], scores) c).1, (mustFirst ([], scores) c).2) := rfl
      rw [hfirst, mem_mustRest, mem_mustFirst]
      simp only [List.not_mem_nil, false_or, List.mem_cons, ne_eq, List.cons_ne_nil,
        not_false_iff, true_and]
      constructor
      · rintro ⟨hm, hall⟩
        exact fun c2 hc2 => hc2.elim (fun he => he ▸ hm) (hall c2)
      · intro hall
        exact ⟨hall c (Or.inl rfl), fun c2 hc2 => hall c2 (Or.inr hc2)⟩

theorem mem_shouldFold (c : List Hit) : ∀ (docs : List String)
    (scores : List (String × ℚ)) (id : String),
    id ∈ (c.foldl (fun st2 h => (insSet st2.1 h.id, addScore st2.2 h.id h.score))
      (docs, scores)).1 ↔ id ∈ docs ∨ id ∈ hitIds c := by
  induction c with
  | nil => intro docs scores id; simp [hitIds]
  | cons h rest ih =>
      intro docs scores id
      simp only [List.foldl_cons, ih, mem_insSet, hitIds, List.map_cons, List.mem_cons]
      simp only [hitIds] at *
      tauto

theorem mem_processShould (cs : List (List Hit)) : ∀ (docs : List String)
    (scores : List (String × ℚ)) (id : String),
    id ∈ (processShould (docs, scores) cs).1 ↔
      id ∈ docs ∨ ∃ c ∈ cs, id ∈ hitIds c := by
  induction cs with
  | nil => intro docs scores id; simp [processShould]
  | cons c rest ih =>
      intro docs scores id
      simp only [processShould]
      have hfold : (c.foldl (fun st2 h => (insSet st2.1 h.id, addScore st2.2 h.id h.score))
          (docs, scores))
          = ((c.foldl (fun st2 h => (insSet st2.1 h.id, addScore st2.2 h.id h.score))
              (docs, scores)).1,
             (c.foldl (fun st2 h => (insSet st2.1 h.id, addScore st2.2 h.id h.score))
              (docs, scores)).2) := rfl
      rw [hfold, ih, mem_shouldFold]
      simp only [List.mem_cons]
      constructor
      · rintro ((hm | hm) | ⟨c2, hc2, hm⟩)
        · exact Or.inl hm
        · exact Or.inr ⟨c, Or.inl rfl, hm⟩
        · exact Or.inr ⟨c2, Or.inr hc2, hm⟩
      · rintro (hm | ⟨c2, hc2 | hc2, hm⟩)
        · exact Or.inl (Or.inl hm)
        · exact Or.inl (Or.inr (hc2 ▸ hm))
        · exact Or.inr ⟨c2, hc2, hm⟩

theorem mem_notFold (c : List Hit) : ∀ (docs : List String) (id : String),
    id ∈ (c.foldl (fun d h => insSet d h.id) docs) ↔ id ∈ docs ∨ id ∈ hitIds c := by
  induction c with
  | nil => intro docs id; simp [hitIds]
  | cons h rest ih =>
      intro docs id
      simp only [List.foldl_cons, ih, mem_insSet, hitIds, List.map_cons, List.mem_cons]
      simp only [hitIds] at *
      tauto

theorem mem_processMustNot (cs : List (List Hit)) : ∀ (docs : List String) (id : String),
    id ∈ processMustNot docs cs ↔ id ∈ docs ∨ ∃ c ∈ cs, id ∈ hitIds c := by
  induction cs with
  | nil => intro docs id; simp [processMustNot]
  | cons c rest ih =>
      intro docs id
      simp only [processMustNot, ih, mem_notFold, List.mem_cons]
      constructor
      · rintro ((hm | hm) | ⟨c2, hc2, hm⟩)
        · exact Or.inl hm
        · exact Or.inr ⟨c, Or.inl rfl, hm⟩
        · exact Or.inr ⟨c2, Or.inr hc2, hm⟩
      · rintro (hm | ⟨c2, hc2 | hc2, hm⟩)
        · exact Or.inl (Or.inl hm)
        · exact Or.inl (Or.inr (hc2 ▸ hm))
        · exact Or.inr ⟨c2, hc2, hm⟩

theorem mem_applyBoolFilters (cs : List (List Hit)) : ∀ (ids : List String) (id : String),
    id ∈ applyBoolFilters ids cs ↔ id ∈ ids ∧ ∀ c ∈ cs, id ∈ hitIds c := by
  induction cs with
  | nil => intro ids id; simp [applyBoolFilters]
  | cons c rest ih =>
      intro ids id
      simp only [applyBoolFilters, ih, List.mem_filter, List.mem_cons]
      constructor
      · rintro ⟨⟨hm, hc⟩, hall⟩
        have hcm : id ∈ hitIds c := by simpa [hitIds] using hc
        exact ⟨hm, fun c2 hc2 => hc2.elim (fun he => he ▸ hcm) (hall c2)⟩
      · rintro ⟨hm, hall⟩
        refine ⟨⟨hm, ?_⟩, fun c2 hc2 => hall c2 (Or.inr hc2)⟩
        have := hall c (Or.inl rfl)
        simpa [hitIds] using this

/-- C2.  The `bool` branch of the shard query dispatcher combines the
recursively evaluated clause results as the specification states: the
working set is the intersection of the `must` clauses when that
intersection is non-empty and otherwise the union of the `should`
clauses; every document appearing in some `must_not` clause is removed;
each `filter` clause intersects the working set; and the score map is
computed before the `filter` stage, so filter clauses never change any
document's score. -/
theorem c2_bool_query_combination (must should mustNot filters : List (List Hit))
    (id : String) :
    (id ∈ (boolCombine must should mustNot filters).1 ↔
      ((((∃ j, must ≠ [] ∧ ∀ c ∈ must, j ∈ hitIds c) ∧
          must ≠ [] ∧ ∀ c ∈ must, id ∈ hitIds c) ∨
        ((¬ ∃ j, must ≠ [] ∧ ∀ c ∈ must, j ∈ hitIds c) ∧
          ∃ c ∈ should, id ∈ hitIds c)) ∧
       (¬ ∃ c ∈ mustNot, id ∈ hitIds c) ∧
       (∀ c ∈ filters, id ∈ hitIds c))) ∧
    (boolCombine must should mustNot filters).2
      = (boolCombine must should mustNot []).2 := by
  constructor
  · have hM : ∀ j, j ∈ (processMust [] must).1 ↔
        (must ≠ [] ∧ ∀ c ∈ must, j ∈ hitIds c) :=
      fun j => mem_processMust must [] j
    have hS : ∀ j, j ∈ (processShould ([], (processMust [] must).2) should).1 ↔
        ∃ c ∈ should, j ∈ hitIds c := by
      intro j
      rw [mem_processShould]
      simp
    have hN : ∀ j, j ∈ processMustNot [] mustNot ↔ ∃ c ∈ mustNot, j ∈ hitIds c := by
      intro j
      rw [mem_processMustNot]
      simp
    have hEx : (∃ j, must ≠ [] ∧ ∀ c ∈ must, j ∈ hitIds c) ↔
        (processMust [] must).1 ≠ [] := by
      constructor
      · rintro ⟨j, hj⟩ hnil
        have := (hM j).mpr hj
        rw [hnil] at this
        simp at this
      · intro hne
        rcases List.exists_mem_of_ne_nil _ hne with ⟨j, hj⟩
        exact ⟨j, (hM j).mp hj⟩
    simp only [boolCombine]
    rw [mem_applyBoolFilters, List.mem_filter]
    by_cases hMe : (processMust [] must).1 = []
    · have hnotEx : ¬ ∃ j, must ≠ [] ∧ ∀ c ∈ must, j ∈ hitIds c := by
        rw [hEx]
        simpa using hMe
      rw [if_neg (by simpa using hMe)]
      by_cases hSe : (processShould ([], (processMust [] must).2) should).1 = []
      · rw [if_neg (by simpa using hSe)]
        constructor
        · rintro ⟨⟨hm, _⟩, _⟩
          simp at hm
        · rintro ⟨(⟨hex, _⟩ | ⟨_, hsh⟩), _, _⟩
          · exact absurd hex hnotEx
          · rcases hsh with ⟨c, hc, hm⟩
            have : id ∈ (processShould ([], (processMust [] must).2) should).1 :=
              (hS id).mpr ⟨c, hc, hm⟩
            rw [hSe] at this
            simp at this
      · rw [if_pos (by simpa using hSe)]
        constructor
        · rintro ⟨⟨hm, hnc⟩, hf⟩
          refine ⟨Or.inr ⟨hnotEx, (hS id).mp hm⟩, ?_, hf⟩
          intro hcon
          have : id ∈ processMustNot [] mustNot := (hN id).mpr hcon
          simp only [Bool.not_eq_true'] at hnc
          have : (processMustNot [] mustNot).contains id = true := by simpa using this
          rw [this] at hnc
          cases hnc
        · rintro ⟨(⟨hex, _⟩ | ⟨_, hsh⟩), hnn, hf⟩
          · exact absurd hex hnotEx
          · refine ⟨⟨(hS id).mpr hsh, ?_⟩, hf⟩
            simp only [Bool.not_eq_true']
            by_cases hcn : (processMustNot [] mustNot).contains id = true
            · exact absurd ((hN id).mp (by simpa using hcn)) hnn
            · simpa using hcn
    · have hex : ∃ j, must ≠ [] ∧ ∀ c ∈ must, j ∈ hitIds c := hEx.mpr hMe
      rw [if_pos (by simpa using hMe)]
      constructor
      · rintro ⟨⟨hm, hnc⟩, hf⟩
        refine ⟨Or.inl ⟨hex, (hM id).mp hm⟩, ?_, hf⟩
        intro hcon
        have hmem : id ∈ processMustNot [] mustNot := (hN id).mpr hcon
        simp only [Bool.not_eq_true'] at hnc
        have : (processMustNot [] mustNot).contains id = true := by simpa using hmem
        rw [this] at hnc
        cases hnc
      · rintro ⟨(⟨_, hmu⟩ | ⟨hnex, _⟩), hnn, hf⟩
        · refine ⟨⟨(hM id).mpr hmu, ?_⟩, hf⟩
          simp only [Bool.not_eq_true']
          by_cases hcn : (processMustNot [] mustNot).contains id = true
          · exact absurd ((hN id).mp (by simpa using hcn)) hnn
          · simpa using hcn
        · exact absurd hex hnex
  · rfl

theorem lookupA_foldl_setA_update {α β : Type} (dflt : α) (F : α → β → α)
    (key : β → String) (l : List β) : ∀ (m : List (String × α)) (k : String),
    lookupA (l.foldl (fun m2 b => setA m2 (key b) (F ((lookupA m2 (key b)).getD dflt) b)) m) k
      = if (lookupA m k).isSome = true ∨ k ∈ l.map key then
          some ((l.filter (fun b => key b = k)).foldl F ((lookupA m k).getD dflt))
        else none := by
  induction l with
  | nil =>
      intro m k
      simp only [List.foldl_nil, List.map_nil, List.not_mem_nil, or_false,
        List.filter_nil, List.foldl_nil]
      rcases h : lookupA m k with _ | v
      · simp [h]
      · simp [h]
  | cons b rest ih =>
      intro m k
      simp only [List.foldl_cons]
      rw [ih]
      by_cases hk : key b = k
      · have h1 : lookupA (setA m (key b) (F ((lookupA m (key b)).getD dflt) b)) k
            = some (F ((lookupA m k).getD dflt) b) := by
          rw [lookupA_setA, if_pos hk, hk]
        rw [h1]
        simp [hk, List.filter_cons, List.mem_cons]
      · have h1 : lookupA (setA m (key b) (F ((lookupA m (key b)).getD dflt) b)) k
            = lookupA m k := by
          rw [lookupA_setA, if_neg hk]
        rw [h1]
        have hkb : (k = key b) = False := eq_false (fun hc => hk hc.symm)
        simp only [List.filter_cons, hk, decide_eq_true_eq, if_neg,
          List.map_cons, List.mem_cons, hkb, false_or]
        simp [hk]

theorem nodup_keys_foldl_setA_update {α β : Type} (dflt : α) (F : α → β → α)
    (key : β → String) (l : List β) : ∀ (m : List (String × α)),
    (m.map Prod.fst).Nodup →
    ((l.foldl (fun m2 b => setA m2 (key b) (F ((lookupA m2 (key b)).getD dflt) b)) m).map
      Prod.fst).Nodup := by
  induction l with
  | nil => intro m h; simpa using h
  | cons b rest ih =>
      intro m h
      simp only [List.foldl_cons]
      exact ih _ (nodup_keys_setA _ _ _ h)

theorem foldl_add_snd_eq_sum (l : List (String × Int)) : ∀ a : Int,
    l.foldl (fun x b => x + b.2) a = a + (l.map (fun b => b.2)).sum := by
  induction l with
  | nil => intro a; simp
  | cons b rest ih =>
      intro a
      simp only [List.foldl_cons, List.map_cons, List.sum_cons, ih]
      omega

theorem foldl_append_snd_eq_map {β : Type} (l : List (String × β)) : ∀ a : List β,
    l.foldl (fun x b => x ++ [b.2]) a = a ++ l.map (fun b => b.2) := by
  induction l with
  | nil => intro a; simp
  | cons b rest ih =>
      intro a
      simp only [List.foldl_cons, List.map_cons, ih]
      simp

theorem minQ_eq_min (a b : ℚ) : minQ a b = min a b := by
  rw [minQ, min_def]

theorem maxQ_eq_max (a b : ℚ) : maxQ a b = max a b := by
  rw [maxQ, max_def]

theorem foldl_minQ_le_init (l : List ℚ) : ∀ a : ℚ, l.foldl minQ a ≤ a := by
  induction l with
  | nil => intro a; exact le_rfl
  | cons b rest ih =>
      intro a
      calc (b :: rest).foldl minQ a = rest.foldl minQ (minQ a b) := rfl
        _ ≤ minQ a b := ih _
        _ ≤ a := by rw [minQ_eq_min]; exact min_le_left _ _

theorem foldl_minQ_le_mem (l : List ℚ) : ∀ (a x : ℚ), x ∈ l → l.foldl minQ a ≤ x := by
  induction l with
  | nil => intro a x hx; simp at hx
  | cons b rest ih =>
      intro a x hx
      rcases List.mem_cons.mp hx with hx | hx
      · subst hx
        calc (x :: rest).foldl minQ a = rest.foldl minQ (minQ a x) := rfl
          _ ≤ minQ a x := foldl_minQ_le_init _ _
          _ ≤ x := by rw [minQ_eq_min]; exact min_le_right _ _
      · exact ih _ x hx

theorem foldl_minQ_mem_or_init (l : List ℚ) : ∀ a : ℚ,
    l.foldl minQ a = a ∨ l.foldl minQ a ∈ l := by
  induction l with
  | nil => intro a; exact Or.inl rfl
  | cons b rest ih =>
      intro a
      have hstep : (b :: rest).foldl minQ a = rest.foldl minQ (minQ a b) := rfl
      rcases ih (minQ a b) with h | h
      · rcases min_cases a b with ⟨he, _⟩ | ⟨he, _⟩
        · exact Or.inl (by rw [hstep, h, minQ_eq_min, he])
        · exact Or.inr (List.mem_cons.mpr (Or.inl (by rw [hstep, h, minQ_eq_min, he])))
      · exact Or.inr (List.mem_cons.mpr (Or.inr (by rw [hstep]; exact h)))

theorem foldl_maxQ_init_le (l : List ℚ) : ∀ a : ℚ, a ≤ l.foldl maxQ a := by
  induction l with
  | nil => intro a; exact le_rfl
  | cons b rest ih =>
      intro a
      calc a ≤ maxQ a b := by rw [maxQ_eq_max]; exact le_max_left _ _
        _ ≤ rest.foldl maxQ (maxQ a b) := ih _
        _ = (b :: rest).foldl maxQ a := rfl

theorem foldl_maxQ_mem_le (l : List ℚ) : ∀ (a x : ℚ), x ∈ l → x ≤ l.foldl maxQ a := by
  induction l with
  | nil => intro a x hx; simp at hx
  | cons b rest ih =>
      intro a x hx
      rcases List.mem_cons.mp hx with hx | hx
      · subst hx
        calc x ≤ maxQ a x := by rw [maxQ_eq_max]; exact le_max_right _ _
          _ ≤ rest.foldl maxQ (maxQ a x) := foldl_maxQ_init_le _ _
          _ = (x :: rest).foldl maxQ a := rfl
      · exact ih _ x hx

theorem foldl_maxQ_mem_or_init (l : List ℚ) : ∀ a : ℚ,
    l.foldl maxQ a = a ∨ l.foldl maxQ a ∈ l := by
  induction l with
  | nil => intro a; exact Or.inl rfl
  | cons b rest ih =>
      intro a
      have hstep : (b :: rest).foldl maxQ a = rest.foldl maxQ (maxQ a b) := rfl
      rcases ih (maxQ a b) with h | h
      · rcases max_cases a b with ⟨he, _⟩ | ⟨he, _⟩
        · exact Or.inl (by rw [hstep, h, maxQ_eq_max, he])
        · exact Or.inr (List.mem_cons.mpr (Or.inl (by rw [hstep, h, maxQ_eq_max, he])))
      · exact Or.inr (List.mem_cons.mpr (Or.inr (by rw [hstep]; exact h)))

theorem lookupA_termCounts (bs : List (String × Int)) (k : String) :
    lookupA (bs.foldl addBucketCount []) k
      = if k ∈ bs.map Prod.fst then
          some (((bs.filter (fun b => b.1 = k)).map (fun b => b.2)).sum)
        else none := by
  have h := lookupA_foldl_setA_update (0 : Int) (fun a b => a + b.2) Prod.fst bs [] k
  have hfn : (fun m2 (b : String × Int) =>
      setA m2 b.1 ((lookupA m2 b.1).getD 0 + b.2)) = addBucketCount := rfl
  rw [hfn] at h
  rw [h]
  simp only [lookupA, Option.isSome_none, Bool.false_eq_true, false_or, Option.getD_none]
  by_cases hm : k ∈ bs.map Prod.fst
  · rw [if_pos hm, if_pos hm, foldl_add_snd_eq_sum]
    simp
  · rw [if_neg hm, if_neg hm]

theorem nodup_keys_termCounts (bs : List (String × Int)) :
    ((bs.foldl addBucketCount []).map Prod.fst).Nodup := by
  have h := nodup_keys_foldl_setA_update (0 : Int) (fun a b => a + b.2) Prod.fst bs
    [] (by simp)
  have hfn : (fun m2 (b : String × Int) =>
      setA m2 b.1 ((lookupA m2 b.1).getD 0 + b.2)) = addBucketCount := rfl
  rwa [hfn] at h

theorem groupAggs_eq_flat (srs : List ShardResult) :
    groupAggs srs
      = ((srs.filter (fun r => r.success)).flatMap (fun r => r.aggregations)).foldl
          (fun g p => setA g p.1 ((lookupA g p.1).getD [] ++ [p.2])) [] := by
  have key : ∀ (l : List ShardResult)
      (acc : List (String × List AggregationResult)),
      l.foldl (fun groups r =>
        if r.success then
          r.aggregations.foldl
            (fun g p => setA g p.1 ((lookupA g p.1).getD [] ++ [p.2])) groups
        else groups) acc
      = ((l.filter (fun r => r.success)).flatMap (fun r => r.aggregations)).foldl
          (fun g p => setA g p.1 ((lookupA g p.1).getD [] ++ [p.2])) acc := by
    intro l
    induction l with
    | nil => intro acc; rfl
    | cons r rest ih =>
        intro acc
        by_cases hr : r.success = true
        · simp only [List.foldl_cons, if_pos hr, List.filter_cons,
            List.flatMap_cons, List.foldl_append]
          exact ih _
        · simp only [List.foldl_cons, if_neg hr, List.filter_cons]
          exact ih _
  exact key srs []

theorem lookupA_groupAggs (srs : List ShardResult) (name : String) :
    lookupA (groupAggs srs) name
      = if name ∈ ((srs.filter (fun r => r.success)).flatMap
            (fun r => r.aggregations)).map Prod.fst then
          some ((((srs.filter (fun r => r.success)).flatMap
            (fun r => r.aggregations)).filter (fun p => p.1 = name)).map (fun p => p.2))
        else none := by
  rw [groupAggs_eq_flat]
  have h := lookupA_foldl_setA_update ([] : List AggregationResult)
    (fun a b => a ++ [b.2]) Prod.fst
    ((srs.filter (fun r => r.success)).flatMap (fun r => r.aggregations)) [] name
  rw [h]
  simp only [lookupA, Option.isSome_none, Bool.false_eq_true, false_or, Option.getD_none]
  by_cases hm : name ∈ ((srs.filter (fun r => r.success)).flatMap
      (fun r => r.aggregations)).map Prod.fst
  · rw [if_pos hm, if_pos hm, foldl_append_snd_eq_map]
    simp
  · rw [if_neg hm, if_neg hm]

theorem nodup_keys_groupAggs (srs : List ShardResult) :
    ((groupAggs srs).map Prod.fst).Nodup := by
  rw [groupAggs_eq_flat]
  exact nodup_keys_foldl_setA_update ([] : List AggregationResult)
    (fun a b => a ++ [b.2]) Prod.fst _ [] (by simp)

theorem lookupA_mergeFold (gs : List (String × List AggregationResult)) :
    ∀ (acc : List (String × AggregationResult)) (name : String),
    (gs.map Prod.fst).Nodup →
    lookupA (gs.foldl (fun merged g =>
        match g.2.head? with
        | none => merged
        | some first =>
            if first.type = "terms" then
              setA merged g.1 (mergeTermsAggregation g.2 10)
            else if first.type = "stats" then
              setA merged g.1 (mergeStatsAggregation g.2)
            else merged) acc) name
      = match lookupA gs name with
        | none => lookupA acc name
        | some gl =>
            match gl.head? with
            | none => lookupA acc name
            | some first =>
                if first.type = "terms" then some (mergeTermsAggregation gl 10)
                else if first.type = "stats" then some (mergeStatsAggregation gl)
                else lookupA acc name := by
  induction gs with
  | nil => intro acc name _; rfl
  | cons g rest ih =>
      intro acc name hnd
      obtain ⟨k, gl⟩ := g
      simp only [List.map_cons, List.nodup_cons] at hnd
      simp only [List.foldl_cons]
      rw [ih _ name hnd.2]
      by_cases hk : k = name
      · subst hk
        have hrest : lookupA rest k = none :=
          lookupA_eq_none_of_not_mem_keys hnd.1
        rw [hrest]
        have hcons : lookupA ((k, gl) :: rest) k = some gl := by
          simp [lookupA]
        rw [hcons]
        rcases hh : gl.head? with _ | first
        · simp only [hh]
        · simp only [hh]
          by_cases ht : first.type = "terms"
          · rw [if_pos ht, if_pos ht, lookupA_setA, if_pos rfl]
          · rw [if_neg ht, if_neg ht]
            by_cases hs : first.type = "stats"
            · rw [if_pos hs, if_pos hs, lookupA_setA, if_pos rfl]
            · rw [if_neg hs, if_neg hs]
      · have hcons : lookupA ((k, gl) :: rest) name = lookupA rest name := by
          simp [lookupA, hk]
        rw [hcons]
        have hstep : lookupA (match gl.head? with
            | none => acc
            | some first =>
                if first.type = "terms" then setA acc k (mergeTermsAggregation gl 10)
                else if first.type = "stats" then setA acc k (mergeStatsAggregation gl)
                else acc) name = lookupA acc name := by
          rcases hh : gl.head? with _ | first
          · simp only [hh]
          · simp only [hh]
            by_cases ht : first.type = "terms"
            · rw [if_pos ht, lookupA_setA, if_neg hk]
            · rw [if_neg ht]
              by_cases hs : first.type = "stats"
              · rw [if_pos hs, lookupA_setA, if_neg hk]
              · rw [if_neg hs]
        rcases hr : lookupA rest name with _ | gl2
        · simp only [hr]
          exact hstep
        · simp only [hr]
          rcases hh2 : gl2.head? with _ | first2
          · simp only [hh2]
            exact hstep
          · simp only [hh2]
            by_cases ht2 : first2.type = "terms"
            · rw [if_pos ht2, if_pos ht2]
            · rw [if_neg ht2, if_neg ht2]
              by_cases hs2 : first2.type = "stats"
              · rw [if_pos hs2, if_pos hs2]
              · rw [if_neg hs2, if_neg hs2]
                exact hstep

theorem mergeTerms_bucket_counts (aggs : List AggregationResult) (size : Nat)
    (b : String × Int) (hb : b ∈ (mergeTermsAggregation aggs size).buckets) :
    b.2 = sumBucketCounts aggs b.1 := by
  have hmem : b ∈ List.insertionSort countGE
      ((aggs.flatMap (fun a => a.buckets)).foldl addBucketCount []) :=
    List.mem_of_mem_take hb
  have htc : b ∈ (aggs.flatMap (fun a => a.buckets)).foldl addBucketCount [] :=
    (List.perm_insertionSort countGE _).mem_iff.mp hmem
  have hl : lookupA ((aggs.flatMap (fun a => a.buckets)).foldl addBucketCount []) b.1
      = some b.2 := by
    have hnd := nodup_keys_termCounts (aggs.flatMap (fun a => a.buckets))
    exact lookupA_eq_some_of_mem_nodup hnd (by simpa using htc)
  rw [lookupA_termCounts] at hl
  by_cases hm : b.1 ∈ (aggs.flatMap (fun a => a.buckets)).map Prod.fst
  · rw [if_pos hm] at hl
    simp only [Option.some.injEq] at hl
    rw [← hl]
    rfl
  · rw [if_neg hm] at hl
    cases hl

theorem mergeTerms_sorted (aggs : List AggregationResult) (size : Nat) :
    List.Sorted countGE (mergeTermsAggregation aggs size).buckets :=
  List.Pairwise.sublist (List.take_sublist _ _)
    (List.sorted_insertionSort countGE _)

theorem mergeTerms_length_le (aggs : List AggregationResult) (size : Nat) :
    (mergeTermsAggregation aggs size).buckets.length ≤ size := by
  have := List.length_take size
    (List.insertionSort countGE ((aggs.flatMap (fun a => a.buckets)).foldl addBucketCount []))
  calc (mergeTermsAggregation aggs size).buckets.length
      = min size _ := this
    _ ≤ size := min_le_left _ _

theorem mergeTerms_topN (aggs : List AggregationResult) (size : Nat)
    (b : String × Int) (hb : b ∈ (mergeTermsAggregation aggs size).buckets)
    (k : String) (hk : k ∈ (aggs.flatMap (fun a => a.buckets)).map Prod.fst)
    (hnk : k ∉ (mergeTermsAggregation aggs size).buckets.map Prod.fst) :
    sumBucketCounts aggs k ≤ b.2 := by
  have hl : lookupA ((aggs.flatMap (fun a => a.buckets)).foldl addBucketCount []) k
      = some (sumBucketCounts aggs k) := by
    rw [lookupA_termCounts, if_pos hk]
    rfl
  have htc : (k, sumBucketCounts aggs k) ∈
      (aggs.flatMap (fun a => a.buckets)).foldl addBucketCount [] :=
    mem_of_lookupA_eq_some hl
  have hs : (k, sumBucketCounts aggs k) ∈ List.insertionSort countGE
      ((aggs.flatMap (fun a => a.buckets)).foldl addBucketCount []) :=
    (List.perm_insertionSort countGE _).mem_iff.mpr htc
  have hnotTake : (k, sumBucketCounts aggs k) ∉ (mergeTermsAggregation aggs size).buckets := by
    intro hc
    exact hnk (List.mem_map.mpr ⟨(k, sumBucketCounts aggs k), hc, rfl⟩)
  have hdrop : (k, sumBucketCounts aggs k) ∈
      (List.insertionSort countGE
        ((aggs.flatMap (fun a => a.buckets)).foldl addBucketCount [])).drop size := by
    have hsplit := List.take_append_drop size
      (List.insertionSort countGE ((aggs.flatMap (fun a => a.buckets)).foldl addBucketCount []))
    rw [← hsplit] at hs
    rcases List.mem_append.mp hs with h | h
    · exact absurd h hnotTake
    · exact h
  have hpw : List.Pairwise countGE (List.insertionSort countGE
      ((aggs.flatMap (fun a => a.buckets)).foldl addBucketCount [])) :=
    List.sorted_insertionSort countGE _
  rw [← List.take_append_drop size (List.insertionSort countGE
      ((aggs.flatMap (fun a => a.buckets)).foldl addBucketCount []))] at hpw
  have hcross := (List.pairwise_append.mp hpw).2.2
  exact hcross b hb (k, sumBucketCounts aggs k) hdrop

theorem mergeStats_min_le (aggs : List AggregationResult) (a : AggregationResult)
    (ha : a ∈ aggs) :
    (mergeStatsAggregation aggs).min ≤ a.min ∧ a.max ≤ (mergeStatsAggregation aggs).max := by
  constructor
  · exact foldl_minQ_le_mem _ _ _ (List.mem_map.mpr ⟨a, ha, rfl⟩)
  · exact foldl_maxQ_mem_le _ _ _ (List.mem_map.mpr ⟨a, ha, rfl⟩)

theorem mergeStats_min_attained (aggs : List AggregationResult) (hne : aggs ≠ [])
    (hb : ∀ a ∈ aggs, a.min ≤ dblMaxQ) :
    ∃ a ∈ aggs, (mergeStatsAggregation aggs).min = a.min := by
  rcases foldl_minQ_mem_or_init (aggs.map (fun a => a.min)) dblMaxQ with h | h
  · rcases List.exists_mem_of_ne_nil aggs hne with ⟨a0, ha0⟩
    refine ⟨a0, ha0, le_antisymm ?_ ?_⟩
    · exact foldl_minQ_le_mem _ _ _ (List.mem_map.mpr ⟨a0, ha0, rfl⟩)
    · calc a0.min ≤ dblMaxQ := hb a0 ha0
        _ = (mergeStatsAggregation aggs).min := by
            rw [show (mergeStatsAggregation aggs).min
              = (aggs.map (fun a => a.min)).foldl minQ dblMaxQ from rfl, h]
  · rcases List.mem_map.mp h with ⟨a0, ha0, he⟩
    exact ⟨a0, ha0, he.symm⟩

theorem mergeStats_max_attained (aggs : List AggregationResult) (hne : aggs ≠ [])
    (hb : ∀ a ∈ aggs, dblLowestQ ≤ a.max) :
    ∃ a ∈ aggs, (mergeStatsAggregation aggs).max = a.max := by
  rcases foldl_maxQ_mem_or_init (aggs.map (fun a => a.max)) dblLowestQ with h | h
  · rcases List.exists_mem_of_ne_nil aggs hne with ⟨a0, ha0⟩
    refine ⟨a0, ha0, le_antisymm ?_ ?_⟩
    · calc (mergeStatsAggregation aggs).max
          = dblLowestQ := by
            rw [show (mergeStatsAggregation aggs).max
              = (aggs.map (fun a => a.max)).foldl maxQ dblLowestQ from rfl, h]
      _ ≤ a0.max := hb a0 ha0
    · exact foldl_maxQ_mem_le _ _ _ (List.mem_map.mpr ⟨a0, ha0, rfl⟩)
  · rcases List.mem_map.mp h with ⟨a0, ha0, he⟩
    exact ⟨a0, ha0, he.symm⟩

/-- C5 counterexample.  A successful shard result carrying an
`extended_stats` aggregation named `e` produces an empty merged
aggregation map: `mergeAggregations` has merge branches only for `terms`
and `stats`, so extended_stats results are dropped rather than merged with
summed counts/sums/sum-of-squares as claimed. -/
theorem c5_extended_stats_dropped :
    extStatsAgg.type = "extended_stats" ∧ extStatsShard.success = true ∧
    extStatsShard.aggregations = [("e", extStatsAgg)] ∧
    mergeAggregations [extStatsShard] = [] := by
  exact ⟨rfl, rfl, rfl, by decide⟩

/-- C5 amended.  The coordinator groups the aggregations of successful
shard results by name.  A group whose first member has type `terms` is
merged by summing bucket counts per key and returning the ten largest
counts in descending order; a group of type `stats` is merged by summing
counts and sums, taking the minimum of the minima and maximum of the
maxima, and recomputing the average from the merged totals.  A group of
any other type — including `extended_stats` — is dropped: it does not
appear in the merged result at all. -/
theorem c5_merge_aggregations_amended (srs : List ShardResult) (name : String)
    (g : List AggregationResult) (first : AggregationResult)
    (hg : lookupA (groupAggs srs) name = some g) (hh : g.head? = some first) :
    (g = (((srs.filter (fun r => r.success)).flatMap
        (fun r => r.aggregations)).filter (fun p => p.1 = name)).map (fun p => p.2)) ∧
    (first.type = "terms" →
      lookupA (mergeAggregations srs) name = some (mergeTermsAggregation g 10) ∧
      (mergeTermsAggregation g 10).buckets.length ≤ 10 ∧
      List.Sorted countGE (mergeTermsAggregation g 10).buckets ∧
      (∀ b ∈ (mergeTermsAggregation g 10).buckets, b.2 = sumBucketCounts g b.1) ∧
      (∀ b ∈ (mergeTermsAggregation g 10).buckets, ∀ k,
        k ∈ (g.flatMap (fun a => a.buckets)).map Prod.fst →
        k ∉ (mergeTermsAggregation g 10).buckets.map Prod.fst →
        sumBucketCounts g k ≤ b.2)) ∧
    (first.type = "stats" →
      lookupA (mergeAggregations srs) name = some (mergeStatsAggregation g) ∧
      (mergeStatsAggregation g).count = (g.map (fun a => a.count)).sum ∧
      (mergeStatsAggregation g).sum = (g.map (fun a => a.sum)).sum ∧
      (∀ a ∈ g, (mergeStatsAggregation g).min ≤ a.min ∧
        a.max ≤ (mergeStatsAggregation g).max) ∧
      ((∀ a ∈ g, a.min ≤ dblMaxQ) → ∃ a ∈ g, (mergeStatsAggregation g).min = a.min) ∧
      ((∀ a ∈ g, dblLowestQ ≤ a.max) → ∃ a ∈ g, (mergeStatsAggregation g).max = a.max) ∧
      (0 < (mergeStatsAggregation g).count →
        (mergeStatsAggregation g).avg
          = (mergeStatsAggregation g).sum / ((mergeStatsAggregation g).count : ℚ)) ∧
      (¬ 0 < (mergeStatsAggregation g).count → (mergeStatsAggregation g).avg = 0)) ∧
    (first.type ≠ "terms" → first.type ≠ "stats" →
      lookupA (mergeAggregations srs) name = none) := by
  have hne : g ≠ [] := by
    intro hc
    rw [hc] at hh
    cases hh
  have hgroup : g = (((srs.filter (fun r => r.success)).flatMap
      (fun r => r.aggregations)).filter (fun p => p.1 = name)).map (fun p => p.2) := by
    rw [lookupA_groupAggs] at hg
    by_cases hm : name ∈ ((srs.filter (fun r => r.success)).flatMap
        (fun r => r.aggregations)).map Prod.fst
    · rw [if_pos hm] at hg
      exact (by simpa using hg : _ = g).symm
    · rw [if_neg hm] at hg
      cases hg
  have hfold : mergeAggregations srs
      = (groupAggs srs).foldl (fun merged g2 =>
          match g2.2.head? with
          | none => merged
          | some first2 =>
              if first2.type = "terms" then
                setA merged g2.1 (mergeTermsAggregation g2.2 10)
              else if first2.type = "stats" then
                setA merged g2.1 (mergeStatsAggregation g2.2)
              else merged) [] := rfl
  have hml := lookupA_mergeFold (groupAggs srs) [] name (nodup_keys_groupAggs srs)
  rw [hg] at hml
  simp only [hh] at hml
  rw [← hfold] at hml
  refine ⟨hgroup, ?_, ?_, ?_⟩
  · intro ht
    rw [if_pos ht] at hml
    refine ⟨hml, mergeTerms_length_le g 10, mergeTerms_sorted g 10, ?_, ?_⟩
    · intro b hb
      exact mergeTerms_bucket_counts g 10 b hb
    · intro b hb k hk hnk
      exact mergeTerms_topN g 10 b hb k hk hnk
  · intro hs
    have ht : first.type ≠ "terms" := by rw [hs]; decide
    rw [if_neg ht, if_pos hs] at hml
    refine ⟨hml, rfl, rfl, ?_, ?_, ?_, ?_, ?_⟩
    · intro a ha
      exact mergeStats_min_le g a ha
    · intro hb
      exact mergeStats_min_attained g hne hb
    · intro hb
      exact mergeStats_max_attained g hne hb
    · intro hpos
      have havg : (mergeStatsAggregation g).avg
          = if 0 < (g.map (fun a => a.count)).sum then
              (g.map (fun a => a.sum)).sum / (((g.map (fun a => a.count)).sum : Int) : ℚ)
            else 0 := rfl
      have hc : (mergeStatsAggregation g).count = (g.map (fun a => a.count)).sum := rfl
      rw [hc] at hpos
      rw [havg, if_pos hpos]
      rfl
    · intro hpos
      have havg : (mergeStatsAggregation g).avg
          = if 0 < (g.map (fun a => a.count)).sum then
              (g.map (fun a => a.sum)).sum / (((g.map (fun a => a.count)).sum : Int) : ℚ)
            else 0 := rfl
      have hc : (mergeStatsAggregation g).count = (g.map (fun a => a.count)).sum := rfl
      rw [hc] at hpos
      rw [havg, if_neg hpos]
  · intro ht hs
    rw [if_neg ht, if_neg hs] at hml
    exact hml

/-- Witness for the amended C5 at two concrete shard results: the `stats`
group named `s` and the `terms` group named `t` are merged, while an
`extended_stats` aggregation named `e` is absent from the merged output. -/
theorem c5_merge_aggregations_witness :
    lookupA (mergeAggregations statsShards) "s"
      = some (mergeStatsAggregation [statsAggA, statsAggB]) ∧
    lookupA (mergeAggregations statsShards) "t"
      = some (mergeTermsAggregation [termsAggA, termsAggB] 10) ∧
    lookupA (mergeAggregations [extStatsShard]) "e" = none := by
  refine ⟨?_, ?_, ?_⟩
  · exact ((c5_merge_aggregations_amended statsShards "s" [statsAggA, statsAggB]
      statsAggA (by decide) (by decide)).2.2.1 (by decide)).1
  · exact ((c5_merge_aggregations_amended statsShards "t" [termsAggA, termsAggB]
      termsAggA (by decide) (by decide)).2.1 (by decide)).1
  · exact (c5_merge_aggregations_amended [extStatsShard] "e" [extStatsAgg]
      extStatsAgg (by decide) (by decide)).2.2.2 (by decide) (by decide)
